import Mathlib

/-!
# CLOrca: a shallow embedding of the command line parser

The development embeds `src/Option.h` and `src/CLOrca.h`.

* A `std::string` is a list of characters (`Str`), a `std::vector` is a list.
* The object `CLOrca::CLOrca` is a record that is passed explicitly; a method that
  writes a member returns the new record.
* A pointer into the `options` vector (`Option*`) is an index into the list, `none` is
  `nullptr`.
* A method that can throw (`std::string::at`, `std::vector::at`) returns `Maybe`, and
  `none` stands for the exception leaving the method.
* `int` is 32 bits wide and `size_t` 64 bits wide; a comparison of an `int` with a
  `size()` converts the `int` to `size_t`, which is `to_size_t` below.
* `print_error` only writes to `std::cerr` and has no counterpart; only the evaluation of
  its argument (which may throw) is kept.
-/

/-- Nullable pointers and results of methods that may throw: `none` is `nullptr`, or the
exception that leaves the method. -/
abbrev Maybe (α : Type) := Option α

set_option linter.dupNamespace false

namespace CLOrca

/-- The type `std::string`, as its sequence of characters. -/
abbrev Str := List Char

/-- The constant `CLOrca::SEPARATOR`. -/
def SEPARATOR : Char := '='

/-- The constant `unlimited_arguments`. -/
def unlimited_arguments : Int := -1

/-- Conversion of an `int` to the 64 bit unsigned `size_t`, as C++ performs it when an
`int` is compared with a `size()` or passed to `at`. -/
def to_size_t (n : Int) : Nat := (n % 2 ^ 64).toNat

/-- The values of the C++ type `int`. -/
def is_int (n : Int) : Prop := -(2 : Int) ^ 31 ≤ n ∧ n < (2 : Int) ^ 31

/-- The enumeration `Option::Type`. -/
inductive OptionType where
  | Simple
  | Compound
deriving DecidableEq, Repr

/-- The class `CLOrca::Option`. -/
structure Option where
  aliases : List Str
  description : Str
  name : Str
  values : List Str
  defaults : List Str
  type : OptionType
  provided : Bool
deriving DecidableEq, Repr

/-- The method `Option::has_alias`: `std::find_if` over the aliases with string equality. -/
def Option.has_alias (o : Option) (al : Str) : Bool :=
  o.aliases.any (fun a => al == a)

/-- The method `Option::is_compound`. -/
def Option.is_compound (o : Option) : Bool :=
  o.type == OptionType.Compound

/-- The method `Option::get`. Both comparisons convert `index` to `size_t`; the guarded
`at` calls cannot throw. -/
def Option.get (o : Option) (index : Int) : Str :=
  if !o.is_compound then []
  else if h : to_size_t index < o.values.length then o.values[to_size_t index]
  else if h : to_size_t index < o.defaults.length then o.defaults[to_size_t index]
  else []

/-- The loop of `Option::get_aliases`, with `result` the string built so far. -/
def Option.get_aliases_loop (unifying_str : Str) : List Str → Str → Str
  | [], result => result
  | a :: rest, result =>
    let result1 := if result.length ≠ 0 then result ++ unifying_str else result
    Option.get_aliases_loop unifying_str rest (result1 ++ a)

/-- The method `Option::get_aliases`. -/
def Option.get_aliases (o : Option) (unifying_str : Str) : Str :=
  Option.get_aliases_loop unifying_str o.aliases []

/-- The struct `Config`. -/
structure Config where
  error_prefix : Str
  verbose : Bool
  arguments_limit : Int
deriving DecidableEq, Repr

/-- The value `CLOrca::default_config`. -/
def default_config : Config :=
  { error_prefix := "CLOrca error: ".toList, verbose := true,
    arguments_limit := unlimited_arguments }

/-- The struct `OptionInfo`. -/
structure OptionInfo where
  option : Str
  value : Str
  has_separator : Bool
deriving DecidableEq, Repr

/-- The enumeration `Error`. -/
inductive Error where
  | NoError
  | MissingValue
  | OptionCantHoldValue
  | NotPossibleOption
  | OptionDoesntExist
  | TooMuchArguments
deriving DecidableEq, Repr

/-- The data members of the class `CLOrca::CLOrca`. -/
structure CLOrca where
  waiting_value_option : Maybe Nat
  arguments : List Str
  default_arguments : List Str
  options : List Option
  config : Config
  error : Error
  executable_name : Str
deriving DecidableEq, Repr

/-- One iteration of the loop of `get_option_info`; the accumulator holds
`fetched_option`, `fetched_value` and `separator_switch`. -/
def get_option_info_step (acc : OptionInfo) (a : Char) : OptionInfo :=
  if a = SEPARATOR ∧ acc.has_separator = false then
    { acc with has_separator := true }
  else if acc.has_separator then
    { acc with value := acc.value ++ [a] }
  else
    { acc with option := acc.option ++ [a] }

/-- The method `CLOrca::get_option_info`. -/
def get_option_info (option : Str) : OptionInfo :=
  option.foldl get_option_info_step { option := [], value := [], has_separator := false }

/-- The method `CLOrca::find_option`: `std::find_if` over the options; the iterator is the
position, `options.end()` is the length. -/
def CLOrca.find_option (s : CLOrca) (option : Str) : Maybe (Fin s.options.length) :=
  let f := s.options.findIdx (fun o => o.has_alias option)
  if h : f < s.options.length then some ⟨f, h⟩ else none

/-- Evaluation of `waiting_value_option->aliases.at(0)`, the argument of `print_error`:
it throws when the option the pointer designates has no alias. -/
def CLOrca.waiting_alias (s : CLOrca) (w : Nat) : Maybe Str :=
  match s.options[w]? with
  | none => none
  | some wo => wo.aliases.head?

/-- The block `if (waiting_value_option) ...` of `load_option`. -/
def CLOrca.interrupt_waiting (s : CLOrca) : Maybe CLOrca :=
  match s.waiting_value_option with
  | none => some s
  | some w =>
    match s.waiting_alias w with
    | none => none
    | some _ => some { s with error := Error.MissingValue, waiting_value_option := none }

/-- The method `CLOrca::load_option`. -/
def CLOrca.load_option (s : CLOrca) (raw_option : Str) : Maybe CLOrca :=
  let info := get_option_info raw_option
  match s.find_option info.option with
  | none => some { s with error := Error.NotPossibleOption }
  | some ci =>
    let cli_option : Option := { s.options[ci.val] with provided := true }
    let s1 : CLOrca := { s with options := s.options.set ci.val cli_option }
    match s1.interrupt_waiting with
    | none => none
    | some s2 =>
      if cli_option.is_compound then
        if info.has_separator then
          if info.value.length ≠ 0 then
            some { s2 with options :=
              s2.options.set ci.val { cli_option with values := cli_option.values ++ [info.value] } }
          else
            some { s2 with error := Error.MissingValue }
        else
          some { s2 with waiting_value_option := some ci.val }
      else if info.has_separator then
        some { s2 with error := Error.OptionCantHoldValue }
      else
        some s2

/-- The loop of `load_simple_options` from index `i` on; `fuel` bounds the number of
iterations left and is started at `option.size()`. -/
def CLOrca.load_simple_options_loop (option : Str) : Nat → Nat → CLOrca → Maybe CLOrca
  | 0, _, s => some s
  | fuel + 1, i, s =>
    if h : i < option.length then
      if i = 0 then
        CLOrca.load_simple_options_loop option fuel (i + 1) s
      else if option.length > i + 1 ∧ option[i + 1]? = some SEPARATOR then
        s.load_option ('-' :: option.drop i)
      else
        match s.load_option ['-', option[i]] with
        | none => none
        | some s1 => CLOrca.load_simple_options_loop option fuel (i + 1) s1
    else some s

/-- The method `CLOrca::load_simple_options`. -/
def CLOrca.load_simple_options (s : CLOrca) (option : Str) : Maybe CLOrca :=
  CLOrca.load_simple_options_loop option option.length 0 s

/-- The call `std::filesystem::path(p).filename().string()` on a POSIX path: what follows
the last `/`. -/
def filename (p : Str) : Str :=
  (p.reverse.takeWhile (fun c => c != '/')).reverse

/-- The body of the loop of `load_options` for an index `i > 0`. `curr_arg.at(0)` throws
on the empty string. -/
def CLOrca.load_argument (s : CLOrca) (curr_arg : Str) : Maybe CLOrca :=
  match curr_arg[0]? with
  | none => none
  | some c0 =>
    if c0 = '-' then
      if curr_arg.length > 1 ∧ curr_arg[1]? = some '-' then
        s.load_option curr_arg
      else
        s.load_simple_options curr_arg
    else
      match s.waiting_value_option with
      | some w =>
        match s.options[w]? with
        | none => none
        | some wo =>
          some { s with
            options := s.options.set w { wo with values := wo.values ++ [curr_arg] },
            waiting_value_option := none }
      | none => some { s with arguments := s.arguments ++ [curr_arg] }

/-- The loop of `load_options` over `argv[1]`, ..., `argv[argc - 1]`. -/
def CLOrca.load_arguments (s : CLOrca) : List Str → Maybe CLOrca
  | [] => some s
  | curr_arg :: rest =>
    match s.load_argument curr_arg with
    | none => none
    | some s1 => CLOrca.load_arguments s1 rest

/-- The block after the loop of `load_options` that reports an option still waiting. -/
def CLOrca.check_waiting (s : CLOrca) : Maybe CLOrca :=
  match s.waiting_value_option with
  | none => some s
  | some w =>
    match s.waiting_alias w with
    | none => none
    | some _ => some { s with error := Error.MissingValue }

/-- The last block of `load_options`: the check of the number of arguments. The limit is
converted to `size_t` by the comparison. -/
def CLOrca.check_limit (s : CLOrca) : CLOrca :=
  if s.config.arguments_limit ≠ unlimited_arguments
      ∧ s.arguments.length > to_size_t s.config.arguments_limit then
    { s with error := Error.TooMuchArguments }
  else s

/-- The method `CLOrca::load_options`; `argv` lists the `argc` strings the loop visits. -/
def CLOrca.load_options (s : CLOrca) (argv : List Str) : Maybe CLOrca :=
  match argv with
  | [] => (s.check_waiting).map CLOrca.check_limit
  | exe :: rest =>
    match CLOrca.load_arguments { s with executable_name := filename exe } rest with
    | none => none
    | some s1 => (s1.check_waiting).map CLOrca.check_limit

/-- The member initialisers of the constructor of `CLOrca::CLOrca`. -/
def CLOrca.init (options : List Option) (default_arguments : List Str) (config : Config) :
    CLOrca :=
  { waiting_value_option := none, arguments := [], default_arguments := default_arguments,
    options := options, config := config, error := Error.NoError, executable_name := [] }

/-- The constructor of `CLOrca::CLOrca`. -/
def CLOrca.construct (argv : List Str) (options : List Option)
    (default_arguments : List Str) (config : Config) : Maybe CLOrca :=
  (CLOrca.init options default_arguments config).load_options argv

/-- The method `CLOrca::check`; the result comes with the object after the call. -/
def CLOrca.check (s : CLOrca) (option : Str) : Bool × CLOrca :=
  let s1 : CLOrca := { s with error := Error.NoError }
  match s1.find_option option with
  | none => (false, { s1 with error := Error.OptionDoesntExist })
  | some found => (s1.options[found.val].provided, s1)

/-- The method `CLOrca::get`; the result comes with the object after the call. -/
def CLOrca.get (s : CLOrca) (option : Str) (index : Int) : Str × CLOrca :=
  let s1 : CLOrca := { s with error := Error.NoError }
  match s1.find_option option with
  | none => ([], { s1 with error := Error.OptionDoesntExist })
  | some found => (s1.options[found.val].get index, s1)

/-- The method `CLOrca::get_argument`; the result comes with the object after the call,
which the method does not write. -/
def CLOrca.get_argument (s : CLOrca) (argument_number : Int) : Str × CLOrca :=
  if h : to_size_t argument_number < s.arguments.length then
    (s.arguments[to_size_t argument_number], s)
  else if h : to_size_t argument_number < s.default_arguments.length then
    (s.default_arguments[to_size_t argument_number], s)
  else ([], s)

/-- The method `CLOrca::get_arguments`. -/
def CLOrca.get_arguments (s : CLOrca) : List Str := s.arguments

/-- The method `CLOrca::get_error`. -/
def CLOrca.get_error (s : CLOrca) : Error := s.error


/-- The loop of `load_simple_options` read as a walk over the characters that follow the
leading `-`. -/
def CLOrca.short_walk (s : CLOrca) : List Char → Maybe CLOrca
  | [] => some s
  | c :: rest =>
    if rest.head? = some SEPARATOR then s.load_option ('-' :: c :: rest)
    else
      match s.load_option ['-', c] with
      | none => none
      | some s1 => CLOrca.short_walk s1 rest

/-- What the declaration of an option fixes: the option with its parse results erased. -/
def Option.decl (o : Option) : Option := { o with values := [], provided := false }

/-- The option a non-null `waiting_value_option` designates exists and has an alias. -/
def CLOrca.wf (s : CLOrca) : Prop :=
  ∀ w, s.waiting_value_option = some w → ∃ o, s.options[w]? = some o ∧ o.aliases ≠ []

/-- The options of the first test case of `tests.cpp`. -/
def input_options : List Option :=
  [ { aliases := ["-h".toList, "--help".toList], description := "print help page".toList,
      name := "help".toList, values := [], defaults := [], type := OptionType.Simple,
      provided := false },
    { aliases := ["-f".toList, "--file".toList], description := "name of the file".toList,
      name := "file".toList, values := [], defaults := [], type := OptionType.Compound,
      provided := false },
    { aliases := ["-l".toList], description := "list all the possible outcomes".toList,
      name := "list".toList, values := [], defaults := [], type := OptionType.Simple,
      provided := false },
    { aliases := ["-a".toList], description := "append provided line to the file".toList,
      name := "append".toList, values := [], defaults := [], type := OptionType.Compound,
      provided := false },
    { aliases := ["-d".toList, "--default".toList], description := "default options".toList,
      name := "default".toList, values := [],
      defaults := ["1".toList, "2".toList, "default_option3".toList],
      type := OptionType.Compound, provided := false } ]

/-- The options of the error test cases of `tests.cpp`, as the constructor calls there build
them: an empty name, and the last string as the single default value. -/
def error_options : List Option :=
  [ { aliases := ["-f".toList, "--file".toList], description := "file".toList, name := [],
      values := [], defaults := ["name of the file".toList], type := OptionType.Compound,
      provided := false },
    { aliases := ["-h".toList, "--help".toList], description := "help".toList, name := [],
      values := [], defaults := ["print help page".toList], type := OptionType.Simple,
      provided := false } ]

/-- The configuration of the error test cases of `tests.cpp`: no prefix, not verbose. -/
def quiet_config : Config :=
  { error_prefix := [], verbose := false, arguments_limit := unlimited_arguments }

/-- The configuration of the test case on the arguments limit. -/
def limit_config : Config :=
  { error_prefix := "CLOrca error: ".toList, verbose := false, arguments_limit := 1 }

/-- Options `-l` and `-a` Simple and `-f` Compound, for the cluster `-laf=foo.txt`. -/
def cluster_options : List Option :=
  [ { aliases := ["-l".toList], description := [], name := [], values := [], defaults := [],
      type := OptionType.Simple, provided := false },
    { aliases := ["-a".toList], description := [], name := [], values := [], defaults := [],
      type := OptionType.Simple, provided := false },
    { aliases := ["-f".toList], description := [], name := [], values := [], defaults := [],
      type := OptionType.Compound, provided := false } ]

/-- A Simple option whose only alias contains the separator. -/
def separator_alias_options : List Option :=
  [ { aliases := ["--a=b".toList], description := [], name := [], values := [], defaults := [],
      type := OptionType.Simple, provided := false } ]

/-- The `-d` option of the first test case after the parse: two supplied values, three
defaults. -/
def parsed_default_option : Option :=
  { aliases := ["-d".toList, "--default".toList], description := "default options".toList,
    name := "default".toList,
    values := ["default_option1".toList, "default_option2".toList],
    defaults := ["1".toList, "2".toList, "default_option3".toList],
    type := OptionType.Compound, provided := true }

/-- The object of the second error test case after `get("--non-existent")`: the parse of
`-h="test"` has marked `-h` provided, and the failed query has left OptionDoesntExist. -/
def after_failed_query : CLOrca :=
  { waiting_value_option := none, arguments := [], default_arguments := [],
    options :=
      [ { aliases := ["-h".toList, "--help".toList], description := "help".toList, name := [],
          values := [], defaults := ["print help page".toList], type := OptionType.Simple,
          provided := true } ],
    config := quiet_config, error := Error.OptionDoesntExist,
    executable_name := "tests".toList }

/-- An object with two positional arguments and three default arguments, as after the parse
of the first test case. -/
def two_arguments : CLOrca :=
  { waiting_value_option := none,
    arguments := ["argument1".toList, "argument2".toList],
    default_arguments := ["default_arg1".toList, "default_arg2".toList, "default_arg3".toList],
    options := [], config := default_config, error := Error.NoError,
    executable_name := "tests".toList }

/-- The public method `find_option` as a call on the object: the pointer it returns, with
the object after the call. The method assigns no member, it only prints. -/
def CLOrca.find_option_call (s : CLOrca) (option : Str) :
    Maybe (Fin s.options.length) × CLOrca :=
  (s.find_option option, s)

/-- The object of the error test cases after the token `-f`: the option `-f` is provided
and waits for its value. -/
def waiting_file : CLOrca :=
  { waiting_value_option := some 0, arguments := [], default_arguments := [],
    options :=
      [ { aliases := ["-f".toList, "--file".toList], description := "file".toList, name := [],
          values := [], defaults := ["name of the file".toList], type := OptionType.Compound,
          provided := true },
        { aliases := ["-h".toList, "--help".toList], description := "help".toList, name := [],
          values := [], defaults := ["print help page".toList], type := OptionType.Simple,
          provided := false } ],
    config := quiet_config, error := Error.NoError, executable_name := "tests".toList }

/-- An option whose first alias is the empty string. -/
def empty_alias_option : Option :=
  { aliases := [[], "-a".toList], description := [], name := [], values := [], defaults := [],
    type := OptionType.Simple, provided := false }

/-- One option before (`o`) and after (`o'`) some steps of the parse: what its declaration
fixed is unchanged, a provided flag that was true is still true, and the values it held are
a prefix of the values it holds. -/
def Option.grows (o o' : Option) : Prop :=
  o'.aliases = o.aliases ∧ o'.type = o.type ∧ o'.defaults = o.defaults ∧
  o'.name = o.name ∧ o'.description = o.description ∧
  (o.provided = true → o'.provided = true) ∧ o.values <+: o'.values

/-- The option list before (`s`) and after (`s'`) some steps of the parse: the same length,
and position by position the option after has grown out of the option before. -/
def CLOrca.options_grow (s s' : CLOrca) : Prop :=
  s'.options.length = s.options.length ∧
  ∀ (k : Nat) (o o' : Option), s.options[k]? = some o → s'.options[k]? = some o' → o.grows o'

/-- The option a non-null `waiting_value_option` designates is a Compound option. -/
def CLOrca.waits_compound (s : CLOrca) : Prop :=
  ∀ w, s.waiting_value_option = some w →
    ∃ o : Option, s.options[w]? = some o ∧ o.is_compound = true

/-- The values of the Simple options of `s` are those they have in `s'`. -/
def CLOrca.simple_values_kept (s s' : CLOrca) : Prop :=
  ∀ (k : Nat) (o o' : Option), s.options[k]? = some o → s'.options[k]? = some o' →
    o.is_compound = false → o'.values = o.values

/-- The error kinds that one call of `load_option` assigns to `error`, in the order of the
assignments: the errors this step raises. -/
def CLOrca.load_option_raised (s : CLOrca) (raw_option : Str) : List Error :=
  let info := get_option_info raw_option
  match s.find_option info.option with
  | none => [Error.NotPossibleOption]
  | some ci =>
    (if s.waiting_value_option.isSome then [Error.MissingValue] else []) ++
    (if s.options[ci.val].is_compound then
      if info.has_separator then
        if info.value.length ≠ 0 then [] else [Error.MissingValue]
      else []
    else if info.has_separator then [Error.OptionCantHoldValue]
    else [])

/-- The errors raised by `load_simple_options`, sub-token after sub-token, over the
characters that follow the leading `-`. -/
def CLOrca.short_walk_raised (s : CLOrca) : List Char → List Error
  | [] => []
  | c :: rest =>
    if rest.head? = some SEPARATOR then s.load_option_raised ('-' :: c :: rest)
    else
      s.load_option_raised ['-', c] ++
        match s.load_option ['-', c] with
        | none => []
        | some s1 => CLOrca.short_walk_raised s1 rest

/-- The errors raised while one token of the argument vector is processed; a non-option
token raises none. -/
def CLOrca.load_argument_raised (s : CLOrca) (curr_arg : Str) : List Error :=
  if curr_arg.head? = some '-' then
    if curr_arg.length > 1 ∧ curr_arg[1]? = some '-' then s.load_option_raised curr_arg
    else s.short_walk_raised (curr_arg.drop 1)
  else []

/-- The errors raised by the loop of `load_options`, token after token. -/
def CLOrca.load_arguments_raised (s : CLOrca) : List Str → List Error
  | [] => []
  | curr_arg :: rest =>
    s.load_argument_raised curr_arg ++
      match s.load_argument curr_arg with
      | none => []
      | some s1 => CLOrca.load_arguments_raised s1 rest

/-- The error raised by the check for an option still waiting at the end of the input. -/
def CLOrca.check_waiting_raised (s : CLOrca) : List Error :=
  if s.waiting_value_option.isSome then [Error.MissingValue] else []

/-- The error raised by the check of the number of arguments. -/
def CLOrca.check_limit_raised (s : CLOrca) : List Error :=
  if s.config.arguments_limit ≠ unlimited_arguments
      ∧ s.arguments.length > to_size_t s.config.arguments_limit then
    [Error.TooMuchArguments]
  else []

/-- The errors raised by the two checks that follow the loop of `load_options`. -/
def CLOrca.final_checks_raised (s : CLOrca) : List Error :=
  s.check_waiting_raised ++
    match s.check_waiting with
    | none => []
    | some s2 => s2.check_limit_raised

/-- The errors raised by the whole pass `load_options`, in the order of its steps: the
tokens in argument order, the check for a waiting option, the check of the limit. -/
def CLOrca.load_options_raised (s : CLOrca) (argv : List Str) : List Error :=
  match argv with
  | [] => s.final_checks_raised
  | exe :: rest =>
    CLOrca.load_arguments_raised { s with executable_name := filename exe } rest ++
      match CLOrca.load_arguments { s with executable_name := filename exe } rest with
      | none => []
      | some s1 => s1.final_checks_raised

/-- The errors raised by the pass that the constructor runs. -/
def CLOrca.construct_raised (argv : List Str) (options : List Option)
    (default_arguments : List Str) (config : Config) : List Error :=
  (CLOrca.init options default_arguments config).load_options_raised argv

/-- The error recorded once the errors `raised` have been raised in this order on an object
that held the error `e`: the last of them, and `e` when there is none. -/
def recorded_after (e : Error) (raised : List Error) : Error :=
  raised.getLast?.getD e

/-- The reference expansion of a short cluster, over the characters that follow the leading
`-`: a character whose next character is the separator yields the one sub-token made of
`-` and the rest from this character on, and ends the expansion; any other character `c`
yields the sub-token `-c`. -/
def expansion : List Char → List Str
  | [] => []
  | c :: rest =>
    if rest.head? = some SEPARATOR then ['-' :: c :: rest]
    else ['-', c] :: expansion rest

/-- The sub-tokens of an option token: the token itself in the long form, else the
expansion of what follows its first character. -/
def sub_tokens (t : Str) : List Str :=
  if t.length > 1 ∧ t[1]? = some '-' then [t] else expansion (t.drop 1)

/-- The step `load_option` applied to sub-tokens one after the other. -/
def CLOrca.load_option_seq (s : CLOrca) : List Str → Maybe CLOrca
  | [] => some s
  | u :: rest =>
    match s.load_option u with
    | none => none
    | some s1 => CLOrca.load_option_seq s1 rest

/-- What a sub-token decides about the waiting option: nothing (`none`) when its name part
resolves to no option, and otherwise the waiting option it leaves, which is the option it
resolves to when that option is Compound and the sub-token has no separator, and no option
in the other cases. -/
def CLOrca.waiting_left_by (s : CLOrca) (u : Str) : Maybe (Maybe Nat) :=
  match s.find_option (get_option_info u).option with
  | none => none
  | some q =>
    some (if s.options[q.val].is_compound = true ∧ (get_option_info u).has_separator = false
      then some q.val else none)

/-- The waiting option after the tokens `ts` have been processed one after the other, read
off the tokens and the declared options alone, `w0` being the waiting option before them: a
non-option token leaves none, and an option token leaves what its last resolving sub-token
decides, or what it met when none of its sub-tokens resolves. -/
def CLOrca.awaited_after (s : CLOrca) (w0 : Maybe Nat) : List Str → Maybe Nat
  | [] => w0
  | t :: ts =>
    CLOrca.awaited_after s
      (if t.head? = some '-' then
        (((sub_tokens t).filterMap s.waiting_left_by).getLast?).getD w0
      else none) ts

theorem get_option_info_fold_value (l : Str) (acc : OptionInfo) (h : acc.has_separator = true) :
    l.foldl get_option_info_step acc = { acc with value := acc.value ++ l } := by
  induction l generalizing acc with
  | nil => simp
  | cons a l ih =>
    rw [List.foldl_cons, ih]
    · simp [get_option_info_step, h]
    · simp [get_option_info_step, h]

theorem get_option_info_fold_option (l : Str) (acc : OptionInfo)
    (h : acc.has_separator = false) (hl : SEPARATOR ∉ l) :
    l.foldl get_option_info_step acc = { acc with option := acc.option ++ l } := by
  induction l generalizing acc with
  | nil => simp
  | cons a l ih =>
    have ha : a ≠ SEPARATOR := fun e => hl (by simp [e])
    have hl1 : SEPARATOR ∉ l := fun e => hl (by simp [e])
    rw [List.foldl_cons, ih _ _ hl1]
    · simp [get_option_info_step, h, ha]
    · simp [get_option_info_step, h, ha]

theorem get_option_info_no_separator (a : Str) (h : SEPARATOR ∉ a) :
    get_option_info a = { option := a, value := [], has_separator := false } := by
  unfold get_option_info
  rw [get_option_info_fold_option _ _ rfl h]
  simp

theorem get_option_info_separator (a v : Str) (h : SEPARATOR ∉ a) :
    get_option_info (a ++ SEPARATOR :: v) = { option := a, value := v, has_separator := true } := by
  unfold get_option_info
  rw [List.foldl_append, get_option_info_fold_option _ _ rfl h, List.foldl_cons,
    get_option_info_fold_value]
  · simp [get_option_info_step]
  · simp [get_option_info_step]


theorem has_alias_decl (o : Option) (x : Str) : o.decl.has_alias x = o.has_alias x := rfl

theorem is_compound_decl (o : Option) : o.decl.is_compound = o.is_compound := rfl

theorem findIdx_has_alias_decl (l : List Option) (x : Str) :
    (l.map Option.decl).findIdx (fun o => o.has_alias x) = l.findIdx (fun o => o.has_alias x) := by
  induction l with
  | nil => rfl
  | cons o l ih => simp [List.findIdx_cons, has_alias_decl, ih]

theorem find_option_val (s : CLOrca) (x : Str) :
    (s.find_option x).map Fin.val =
      if s.options.findIdx (fun o => o.has_alias x) < s.options.length
      then some (s.options.findIdx (fun o => o.has_alias x)) else none := by
  unfold CLOrca.find_option
  by_cases h : s.options.findIdx (fun o => o.has_alias x) < s.options.length <;> simp [h]

theorem find_option_congr (s s' : CLOrca) (x : Str)
    (h : s'.options.map Option.decl = s.options.map Option.decl) :
    (s'.find_option x).map Fin.val = (s.find_option x).map Fin.val := by
  have hl : s'.options.length = s.options.length := by
    simpa using congrArg List.length h
  rw [find_option_val, find_option_val, ← findIdx_has_alias_decl s'.options,
    ← findIdx_has_alias_decl s.options, h, hl]

theorem find_option_has_alias (s : CLOrca) (x : Str) (i : Fin s.options.length)
    (h : s.find_option x = some i) : s.options[i.val].has_alias x = true := by
  unfold CLOrca.find_option at h
  by_cases hlt : s.options.findIdx (fun o => o.has_alias x) < s.options.length
  · simp [hlt] at h
    subst h
    exact List.findIdx_getElem (p := fun (o : Option) => o.has_alias x)
  · simp [hlt] at h

theorem find_option_eq_none (s : CLOrca) (x : Str) :
    s.find_option x = none ↔ ∀ o ∈ s.options, o.has_alias x = false := by
  unfold CLOrca.find_option
  by_cases hlt : s.options.findIdx (fun o => o.has_alias x) < s.options.length
  · simp only [hlt, dite_true]
    constructor
    · intro h; cases h
    · intro h
      have := List.findIdx_lt_length.mp hlt
      obtain ⟨o, ho, hp⟩ := this
      simp [h o ho] at hp
  · simp only [hlt, dite_false, true_iff]
    intro o ho
    by_contra hne
    exact hlt (List.findIdx_lt_length.mpr ⟨o, ho, by simpa using hne⟩)

theorem has_alias_aliases_ne_nil (o : Option) (x : Str) (h : o.has_alias x = true) :
    o.aliases ≠ [] := by
  intro e
  simp [Option.has_alias, e] at h

theorem map_decl_set (l : List Option) (i : Nat) (o : Option) (h : i < l.length)
    (ho : o.decl = l[i].decl) : (l.set i o).map Option.decl = l.map Option.decl := by
  rw [List.map_set, ho]
  apply List.ext_getElem
  · simp
  · intro n h1 h2
    simp [List.getElem_set]
    intro e
    subst e
    rfl

theorem interrupt_waiting_cases (s s2 : CLOrca) (h : s.interrupt_waiting = some s2) :
    s2.options = s.options ∧ s2.arguments = s.arguments ∧ s2.waiting_value_option = none ∧
    s2.config = s.config ∧ s2.default_arguments = s.default_arguments ∧
    s2.executable_name = s.executable_name ∧
    ((s.waiting_value_option = none ∧ s2.error = s.error) ∨
     (s.waiting_value_option ≠ none ∧ s2.error = Error.MissingValue)) := by
  unfold CLOrca.interrupt_waiting at h
  cases hw : s.waiting_value_option with
  | none =>
    simp [hw] at h
    subst h
    simp [hw]
  | some w =>
    simp only [hw] at h
    cases ha : s.waiting_alias w with
    | none => simp [ha] at h
    | some a =>
      simp [ha] at h
      subst h
      simp

theorem interrupt_waiting_none (s : CLOrca) (h : s.waiting_value_option = none) :
    s.interrupt_waiting = some s := by
  simp [CLOrca.interrupt_waiting, h]

theorem waiting_alias_of_wf (s : CLOrca) (hwf : s.wf) (w : Nat)
    (hw : s.waiting_value_option = some w) : ∃ a, s.waiting_alias w = some a := by
  obtain ⟨o, ho, hne⟩ := hwf w hw
  unfold CLOrca.waiting_alias
  rw [ho]
  cases hal : o.aliases with
  | nil => exact absurd hal hne
  | cons a _ => exact ⟨a, by simp [hal]⟩

theorem interrupt_waiting_total (s : CLOrca) (hwf : s.wf) : ∃ s2, s.interrupt_waiting = some s2 := by
  unfold CLOrca.interrupt_waiting
  cases hw : s.waiting_value_option with
  | none => exact ⟨s, rfl⟩
  | some w =>
    obtain ⟨a, ha⟩ := waiting_alias_of_wf s hwf w hw
    simp [ha]


theorem load_option_not_found (s : CLOrca) (t : Str)
    (h : s.find_option (get_option_info t).option = none) :
    s.load_option t = some { s with error := Error.NotPossibleOption } := by
  simp [CLOrca.load_option, h]

theorem wf_of_waiting_none (s : CLOrca) (h : s.waiting_value_option = none) : s.wf := by
  intro w hw
  rw [h] at hw
  cases hw

theorem wf_congr (s s' : CLOrca) (hwf : s.wf)
    (hd : s'.options.map Option.decl = s.options.map Option.decl)
    (hw : s'.waiting_value_option = s.waiting_value_option) : s'.wf := by
  intro w hw'
  rw [hw] at hw'
  obtain ⟨o, ho, hne⟩ := hwf w hw'
  have hl : s'.options.length = s.options.length := by simpa using congrArg List.length hd
  have hlt : w < s.options.length := by
    rcases List.getElem?_eq_some_iff.mp ho with ⟨hlt, _⟩
    exact hlt
  have hlt' : w < s'.options.length := hl ▸ hlt
  refine ⟨s'.options[w], List.getElem?_eq_getElem hlt', ?_⟩
  have h1 : (s'.options.map Option.decl)[w]? = (s.options.map Option.decl)[w]? := by rw [hd]
  simp only [List.getElem?_map, List.getElem?_eq_getElem hlt', ho, Option.map_some'] at h1
  have h2 : s'.options[w].decl.aliases = o.decl.aliases := by
    injection h1 with h1; rw [h1]
  simpa [Option.decl] using h2 ▸ hne

theorem load_option_inv (s s' : CLOrca) (t : Str) (h : s.load_option t = some s') :
    s'.options.map Option.decl = s.options.map Option.decl ∧ s'.arguments = s.arguments ∧
    s'.config = s.config ∧ s'.default_arguments = s.default_arguments ∧
    s'.executable_name = s.executable_name ∧ (s.wf → s'.wf) ∧
    (s.error ≠ Error.TooMuchArguments → s'.error ≠ Error.TooMuchArguments) := by
  unfold CLOrca.load_option at h
  simp only at h
  cases hf : s.find_option (get_option_info t).option with
  | none =>
    simp only [hf] at h
    injection h with h
    subst h
    refine ⟨rfl, rfl, rfl, rfl, rfl, fun hwf => wf_congr _ _ hwf rfl rfl, fun _ => by simp⟩
  | some ci =>
    simp only [hf] at h
    have hal := has_alias_aliases_ne_nil _ _ (find_option_has_alias s _ ci hf)
    split at h
    · cases h
    · rename_i s2 hi
      obtain ⟨ho, ha, hw, hc, hda, hex, he⟩ := interrupt_waiting_cases _ _ hi
      simp only at ho ha hw hc hda hex he
      have hd1 : s2.options.map Option.decl = s.options.map Option.decl := by
        rw [ho]; exact map_decl_set _ _ _ ci.isLt rfl
      have hlen : s2.options.length = s.options.length := by rw [ho]; simp
      have hci : ci.val < s2.options.length := by rw [hlen]; exact ci.isLt
      have he2 : s.error ≠ Error.TooMuchArguments → s2.error ≠ Error.TooMuchArguments := by
        intro hne
        rcases he with ⟨_, he⟩ | ⟨_, he⟩ <;> rw [he]
        · exact hne
        · simp
      have hget : s2.options[ci.val].decl = s.options[ci.val].decl := by
        simp [ho]; rfl
      have hget2 : s2.options[ci.val].aliases = s.options[ci.val].aliases := by
        simp [ho]
      split at h
      · split at h
        · split at h
          · injection h with h
            subst h
            refine ⟨?_, ha, hc, hda, hex, fun _ => wf_of_waiting_none _ hw, he2⟩
            simp only
            rw [map_decl_set _ _ _ hci (by rw [hget]; rfl), hd1]
          · injection h with h
            subst h
            exact ⟨hd1, ha, hc, hda, hex, fun _ => wf_of_waiting_none _ hw, fun _ => by simp⟩
        · injection h with h
          subst h
          refine ⟨hd1, ha, hc, hda, hex, fun _ => ?_, he2⟩
          intro w hw'
          simp only at hw'
          injection hw' with hw'
          subst hw'
          refine ⟨s2.options[ci.val], List.getElem?_eq_getElem hci, ?_⟩
          rw [hget2]
          exact hal
      · split at h
        · injection h with h
          subst h
          exact ⟨hd1, ha, hc, hda, hex, fun _ => wf_of_waiting_none _ hw, fun _ => by simp⟩
        · injection h with h
          subst h
          exact ⟨hd1, ha, hc, hda, hex, fun _ => wf_of_waiting_none _ hw, he2⟩

theorem load_option_total (s : CLOrca) (t : Str) (hwf : s.wf) : ∃ s', s.load_option t = some s' := by
  unfold CLOrca.load_option
  simp only
  cases hf : s.find_option (get_option_info t).option with
  | none => exact ⟨_, rfl⟩
  | some ci =>
    simp only
    have hwf1 : CLOrca.wf
        { s with options := s.options.set ci.val { s.options[ci.val] with provided := true } } :=
      wf_congr _ _ hwf (map_decl_set _ _ _ ci.isLt rfl) rfl
    obtain ⟨s2, hs2⟩ := interrupt_waiting_total _ hwf1
    simp only at hs2
    rw [hs2]
    simp only
    split
    · split
      · split
        · exact ⟨_, rfl⟩
        · exact ⟨_, rfl⟩
      · exact ⟨_, rfl⟩
    · split
      · exact ⟨_, rfl⟩
      · exact ⟨_, rfl⟩


theorem load_option_compound_wait (s : CLOrca) (t : Str) (ci : Fin s.options.length)
    (hf : s.find_option (get_option_info t).option = some ci)
    (hw : s.waiting_value_option = none) (hc : s.options[ci.val].is_compound = true)
    (hs : (get_option_info t).has_separator = false) :
    s.load_option t = some { s with
      options := s.options.set ci.val { s.options[ci.val] with provided := true },
      waiting_value_option := some ci.val } := by
  have hc' : Option.is_compound { s.options[ci.val] with provided := true } = true := hc
  simp only [CLOrca.load_option, hf, CLOrca.interrupt_waiting, hw, hc', hs]
  simp

theorem load_option_simple_flag (s : CLOrca) (t : Str) (ci : Fin s.options.length)
    (hf : s.find_option (get_option_info t).option = some ci)
    (hw : s.waiting_value_option = none) (hc : s.options[ci.val].is_compound = false)
    (hs : (get_option_info t).has_separator = false) :
    s.load_option t = some { s with
      options := s.options.set ci.val { s.options[ci.val] with provided := true } } := by
  have hc' : Option.is_compound { s.options[ci.val] with provided := true } = false := hc
  simp only [CLOrca.load_option, hf, CLOrca.interrupt_waiting, hw, hc', hs]
  simp

theorem load_option_compound_value (s : CLOrca) (t : Str) (ci : Fin s.options.length)
    (hf : s.find_option (get_option_info t).option = some ci)
    (hw : s.waiting_value_option = none) (hc : s.options[ci.val].is_compound = true)
    (hs : (get_option_info t).has_separator = true) (hv : (get_option_info t).value ≠ []) :
    s.load_option t = some { s with
      options := s.options.set ci.val { s.options[ci.val] with
        provided := true, values := s.options[ci.val].values ++ [(get_option_info t).value] } } := by
  have hc' : Option.is_compound { s.options[ci.val] with provided := true } = true := hc
  have hv' : (get_option_info t).value.length ≠ 0 := by
    simpa [List.length_eq_zero] using hv
  simp only [CLOrca.load_option, hf, CLOrca.interrupt_waiting, hw, hc', hs, hv']
  simp [List.set_set, hv]

theorem load_simple_options_loop_eq (option : Str) (fuel i : Nat) (s : CLOrca) (hi : 0 < i)
    (hfuel : option.length ≤ i + fuel) :
    CLOrca.load_simple_options_loop option fuel i s = s.short_walk (option.drop i) := by
  induction fuel generalizing i s with
  | zero =>
    have : option.drop i = [] := List.drop_eq_nil_of_le (by omega)
    simp [CLOrca.load_simple_options_loop, this, CLOrca.short_walk]
  | succ fuel ih =>
    unfold CLOrca.load_simple_options_loop
    by_cases hlt : i < option.length
    · have hne : i ≠ 0 := by omega
      have hdrop : option.drop i = option[i] :: option.drop (i + 1) := List.drop_eq_getElem_cons hlt
      have hhead : (option.drop (i + 1)).head? = option[i + 1]? := List.head?_drop _ _
      simp only [hlt, dite_true, hne, if_false]
      rw [hdrop, CLOrca.short_walk, hhead]
      by_cases hsep : option[i + 1]? = some SEPARATOR
      · have hlen : option.length > i + 1 := by
          rcases List.getElem?_eq_some_iff.mp hsep with ⟨h1, _⟩
          exact h1
        simp [hsep, hlen]
      · simp only [hsep, and_false, if_false]
        cases hl : s.load_option ['-', option[i]] with
        | none => rfl
        | some s1 => exact ih (i + 1) s1 (by omega) (by omega)
    · have : option.drop i = [] := List.drop_eq_nil_of_le (by omega)
      simp [hlt, this, CLOrca.short_walk]

theorem load_simple_options_eq (s : CLOrca) (option : Str) :
    s.load_simple_options option = s.short_walk (option.drop 1) := by
  unfold CLOrca.load_simple_options
  cases option with
  | nil => simp [CLOrca.load_simple_options_loop, CLOrca.short_walk]
  | cons c rest =>
    simp only [List.length_cons]
    rw [CLOrca.load_simple_options_loop]
    simp only [List.length_cons, Nat.zero_lt_succ, dite_true, if_true]
    exact load_simple_options_loop_eq (c :: rest) rest.length (0 + 1) s (by omega) (by simp; omega)

theorem load_argument_long (s : CLOrca) (rest : Str) :
    s.load_argument ('-' :: '-' :: rest) = s.load_option ('-' :: '-' :: rest) := by
  simp [CLOrca.load_argument]

theorem load_argument_short (s : CLOrca) (cs : Str) (h : cs.head? ≠ some '-') :
    s.load_argument ('-' :: cs) = s.short_walk cs := by
  have h1 : ¬ ((('-' :: cs).length > 1) ∧ ('-' :: cs)[1]? = some '-') := by
    rintro ⟨_, h2⟩
    apply h
    cases cs with
    | nil => simp at h2
    | cons c cs => simpa using h2
  unfold CLOrca.load_argument
  simp only [List.getElem?_cons_zero, if_true, h1, if_false]
  rw [load_simple_options_eq]
  rfl

theorem load_argument_plain (s : CLOrca) (t : Str) (hne : t ≠ []) (hd : t.head? ≠ some '-')
    (hw : s.waiting_value_option = none) :
    s.load_argument t = some { s with arguments := s.arguments ++ [t] } := by
  cases t with
  | nil => exact absurd rfl hne
  | cons c t =>
    have hc : c ≠ '-' := by simpa using hd
    simp [CLOrca.load_argument, hc, hw]

theorem load_argument_value (s : CLOrca) (t : Str) (hne : t ≠ []) (hd : t.head? ≠ some '-')
    (w : Nat) (hw : s.waiting_value_option = some w) (hlt : w < s.options.length) :
    s.load_argument t = some { s with
      options := s.options.set w { s.options[w] with values := s.options[w].values ++ [t] },
      waiting_value_option := none } := by
  cases t with
  | nil => exact absurd rfl hne
  | cons c t =>
    have hc : c ≠ '-' := by simpa using hd
    simp [CLOrca.load_argument, hc, hw, List.getElem?_eq_getElem hlt]


theorem has_alias_iff (o : Option) (x : Str) : o.has_alias x = true ↔ x ∈ o.aliases := by
  simp [Option.has_alias]

theorem find_option_none_of_not_alias (s : CLOrca) (x : Str)
    (h : ∀ o ∈ s.options, x ∉ o.aliases) : s.find_option x = none := by
  rw [find_option_eq_none]
  intro o ho
  have := h o ho
  rw [← has_alias_iff] at this
  simpa using this

theorem find_option_first (s : CLOrca) (x : Str) (k : Nat) (hk : k < s.options.length)
    (hx : x ∈ s.options[k].aliases) (hfirst : ∀ j (hj : j < k), x ∉ s.options[j].aliases) :
    s.find_option x = some ⟨k, hk⟩ := by
  have hidx : s.options.findIdx (fun o => o.has_alias x) = k := by
    rw [List.findIdx_eq hk]
    refine ⟨(has_alias_iff _ _).mpr hx, fun j hj => ?_⟩
    have := hfirst j hj
    rw [← has_alias_iff] at this
    simpa using this
  unfold CLOrca.find_option
  simp [hidx, hk]

theorem to_size_t_nonneg (i : Int) (h0 : 0 ≤ i) (hi : is_int i) : to_size_t i = i.toNat := by
  unfold is_int at hi
  unfold to_size_t
  have h64 : (2 : Int) ^ 64 = 18446744073709551616 := by norm_num
  have h31 : (2 : Int) ^ 31 = 2147483648 := by norm_num
  rw [h64]
  rw [h31] at hi
  omega

theorem to_size_t_neg (i : Int) (h0 : i < 0) (hi : is_int i) : 2 ^ 63 ≤ to_size_t i := by
  unfold is_int at hi
  unfold to_size_t
  have h64 : (2 : Int) ^ 64 = 18446744073709551616 := by norm_num
  have h31 : (2 : Int) ^ 31 = 2147483648 := by norm_num
  have h63 : (2 : Nat) ^ 63 = 9223372036854775808 := by norm_num
  rw [h64, h63]
  rw [h31] at hi
  omega

/-- The lookup that `get` and `get_argument` share: entry `i` of `primary` when it has one,
else entry `i` of `fallback` when it has one, else the empty string. -/
theorem index_with_fallback (primary fallback : List Str) (i : Int) (hi : is_int i)
    (hp : primary.length < 2 ^ 63) (hf : fallback.length < 2 ^ 63) :
    (if h : to_size_t i < primary.length then primary[to_size_t i]
      else if h : to_size_t i < fallback.length then fallback[to_size_t i] else []) =
    (if 0 ≤ i ∧ i < primary.length then primary.getD i.toNat []
      else if 0 ≤ i ∧ i < fallback.length then fallback.getD i.toNat [] else []) := by
  by_cases h0 : 0 ≤ i
  · rw [to_size_t_nonneg i h0 hi]
    have e1 : (i < (primary.length : Int)) ↔ i.toNat < primary.length := by omega
    have e2 : (i < (fallback.length : Int)) ↔ i.toNat < fallback.length := by omega
    simp only [h0, true_and, e1, e2]
    by_cases h1 : i.toNat < primary.length
    · simp [h1, List.getD_eq_getElem?_getD]
    · by_cases h2 : i.toNat < fallback.length
      · simp [h1, h2, List.getD_eq_getElem?_getD]
      · simp [h1, h2]
  · have hneg := to_size_t_neg i (by omega) hi
    have h1 : ¬ to_size_t i < primary.length := by omega
    have h2 : ¬ to_size_t i < fallback.length := by omega
    simp [h0, h1, h2]

/-- C3: for an `int` index `i` (negative ones included), `Option::get(i)` is the empty string
on a Simple option; on a Compound option it is `values[i]` when `0 <= i < |values|`, else
`defaults[i]` when `0 <= i < |defaults|`, else the empty string. So a supplied value beats
the default at its index, and an index without a supplied value falls back to the default at
that index. -/
theorem Option_get_value_or_default (o : Option) (i : Int) (hi : is_int i)
    (hv : o.values.length < 2 ^ 63) (hd : o.defaults.length < 2 ^ 63) :
    (o.type = OptionType.Simple → o.get i = []) ∧
    (o.type = OptionType.Compound →
      o.get i =
        if 0 ≤ i ∧ i < o.values.length then o.values.getD i.toNat []
        else if 0 ≤ i ∧ i < o.defaults.length then o.defaults.getD i.toNat []
        else []) ∧
    (o.type = OptionType.Compound → ∀ k : Nat, (k : Int) = i →
      (∀ h : k < o.values.length, o.get i = o.values[k]) ∧
      (∀ h : k < o.defaults.length, o.values.length ≤ k → o.get i = o.defaults[k])) := by
  have hmain : o.type = OptionType.Compound →
      o.get i =
        if 0 ≤ i ∧ i < o.values.length then o.values.getD i.toNat []
        else if 0 ≤ i ∧ i < o.defaults.length then o.defaults.getD i.toNat []
        else [] := by
    intro ht
    have hc : o.is_compound = true := by simp [Option.is_compound, ht]
    unfold Option.get
    simp only [hc, Bool.not_true, Bool.false_eq_true, if_false]
    exact index_with_fallback o.values o.defaults i hi hv hd
  refine ⟨?_, hmain, ?_⟩
  · intro ht
    simp [Option.get, Option.is_compound, ht]
  · intro ht k hk
    rw [hmain ht]
    subst hk
    constructor
    · intro h
      simp [h, List.getD_eq_getElem?_getD]
    · intro h hle
      have : ¬ ((k : Int) < (o.values.length : Int)) := by omega
      simp [h, List.getD_eq_getElem?_getD, hle]


theorem get_option_info_option (t : Str) :
    (get_option_info t).option = t.takeWhile (fun c => c != SEPARATOR) := by
  have hsplit := List.takeWhile_append_dropWhile (fun c => c != SEPARATOR) t
  have hno : SEPARATOR ∉ t.takeWhile (fun c => c != SEPARATOR) := by
    intro hmem
    have := List.mem_takeWhile_imp hmem
    simp at this
  cases hd : t.dropWhile (fun c => c != SEPARATOR) with
  | nil =>
    rw [hd, List.append_nil] at hsplit
    rw [hsplit, get_option_info_no_separator t (hsplit ▸ hno)]
  | cons c v =>
    have hc : c = SEPARATOR := by
      have := List.head_dropWhile_not (fun c => c != SEPARATOR) t (by simp [hd])
      simpa [hd] using this
    subst hc
    rw [hd] at hsplit
    conv_lhs => rw [← hsplit]
    rw [get_option_info_separator _ _ hno]

/-- C6: when the name part of a sub-token (its characters before the first `=`) is an alias
of no option, `load_option` returns with the error NotPossibleOption and with the options
(their provided flags and values), the positional arguments and the waiting option as they
were. -/
theorem load_option_unknown_name (s : CLOrca) (t : Str)
    (h : ∀ o ∈ s.options, t.takeWhile (fun c => c != SEPARATOR) ∉ o.aliases) :
    s.load_option t = some { s with error := Error.NotPossibleOption } ∧
    ∀ s', s.load_option t = some s' →
      s'.get_error = Error.NotPossibleOption ∧ s'.options = s.options ∧
      s'.get_arguments = s.arguments ∧ s'.waiting_value_option = s.waiting_value_option := by
  have hres : s.load_option t = some { s with error := Error.NotPossibleOption } := by
    apply load_option_not_found
    rw [get_option_info_option]
    exact find_option_none_of_not_alias s _ h
  refine ⟨hres, fun s' hs' => ?_⟩
  rw [hres] at hs'
  injection hs' with hs'
  subst hs'
  exact ⟨rfl, rfl, rfl, rfl⟩

/-- C8: for a name that is an alias of no option, `get(name, i)` returns the empty string and
`check(name)` returns false; after either call the error is OptionDoesntExist and every
other member of the object, the options and the positional arguments among them, is as it
was before the call. -/
theorem query_unknown_name (s : CLOrca) (name : Str) (i : Int)
    (h : ∀ o ∈ s.options, name ∉ o.aliases) :
    (s.get name i).1 = [] ∧ (s.check name).1 = false ∧
    (s.get name i).2.get_error = Error.OptionDoesntExist ∧
    (s.check name).2.get_error = Error.OptionDoesntExist ∧
    (s.get name i).2 = { s with error := Error.OptionDoesntExist } ∧
    (s.check name).2 = { s with error := Error.OptionDoesntExist } ∧
    (s.get name i).2.options = s.options ∧ (s.check name).2.options = s.options ∧
    (s.get name i).2.get_arguments = s.arguments ∧
    (s.check name).2.get_arguments = s.arguments := by
  have hf : CLOrca.find_option { s with error := Error.NoError } name = none :=
    find_option_none_of_not_alias _ name h
  simp [CLOrca.get, CLOrca.check, hf, CLOrca.get_error, CLOrca.get_arguments]

/-- C9: for a name that is an alias of the option at position `k` and of no option before it,
`check(name)` returns that option's provided flag and `get(name, i)` returns that option's
`get(i)`; after either call the error is NoError whatever it was before, and nothing else
of the object has changed. -/
theorem query_known_name (s : CLOrca) (name : Str) (i : Int) (k : Nat)
    (hk : k < s.options.length) (hname : name ∈ s.options[k].aliases)
    (hfirst : ∀ j (hj : j < k), name ∉ s.options[j].aliases) :
    (s.check name).1 = s.options[k].provided ∧ (s.get name i).1 = s.options[k].get i ∧
    (s.check name).2.get_error = Error.NoError ∧ (s.get name i).2.get_error = Error.NoError ∧
    (s.check name).2 = { s with error := Error.NoError } ∧
    (s.get name i).2 = { s with error := Error.NoError } := by
  have hf : CLOrca.find_option { s with error := Error.NoError } name = some ⟨k, hk⟩ :=
    find_option_first { s with error := Error.NoError } name k hk hname hfirst
  simp [CLOrca.get, CLOrca.check, hf, CLOrca.get_error]

/-- C10: for an `int` index `n` (negative ones included), `get_argument(n)` is
`arguments[n]` when `0 <= n < |arguments|`, else `default_arguments[n]` when
`0 <= n < |default_arguments|`, else the empty string; the object after the call is the
object before it, so the error, the options and the positional arguments are unchanged. -/
theorem get_argument_value_or_default (s : CLOrca) (n : Int) (hn : is_int n)
    (ha : s.arguments.length < 2 ^ 63) (hd : s.default_arguments.length < 2 ^ 63) :
    (s.get_argument n).1 =
      (if 0 ≤ n ∧ n < s.arguments.length then s.arguments.getD n.toNat []
        else if 0 ≤ n ∧ n < s.default_arguments.length then s.default_arguments.getD n.toNat []
        else []) ∧
    (s.get_argument n).2 = s := by
  constructor
  · rw [← index_with_fallback s.arguments s.default_arguments n hn ha hd]
    unfold CLOrca.get_argument
    split
    · rfl
    · split <;> rfl
  · unfold CLOrca.get_argument
    split
    · rfl
    · split <;> rfl


theorem load_arguments_plain (s : CLOrca) (ps : List Str)
    (hps : ∀ p ∈ ps, p ≠ [] ∧ p.head? ≠ some '-') (hw : s.waiting_value_option = none) :
    s.load_arguments ps = some { s with arguments := s.arguments ++ ps } := by
  induction ps generalizing s with
  | nil => simp [CLOrca.load_arguments]
  | cons p ps ih =>
    have hp := hps p (by simp)
    rw [CLOrca.load_arguments, load_argument_plain s p hp.1 hp.2 hw]
    simp only
    have := ih { s with arguments := s.arguments ++ [p] } (fun q hq => hps q (by simp [hq])) hw
    rw [this]
    simp

theorem load_argument_alias (s : CLOrca) (a : Str)
    (hform : (∃ rest, a = '-' :: '-' :: rest) ∨ (∃ c, a = ['-', c])) (v : Str) :
    s.load_argument a = s.load_option a ∧
    s.load_argument (a ++ SEPARATOR :: v) = s.load_option (a ++ SEPARATOR :: v) := by
  rcases hform with ⟨rest, rfl⟩ | ⟨c, rfl⟩
  · exact ⟨load_argument_long s rest, load_argument_long s (rest ++ SEPARATOR :: v)⟩
  · by_cases hc : c = '-'
    · subst hc
      exact ⟨load_argument_long s [], load_argument_long s (SEPARATOR :: v)⟩
    · constructor
      · rw [load_argument_short s [c] (by simpa using hc)]
        simp only [CLOrca.short_walk, List.head?_nil]
        cases s.load_option ['-', c] <;> simp
      · show s.load_argument ('-' :: (c :: SEPARATOR :: v)) = _
        rw [load_argument_short s _ (by simpa using hc)]
        simp [CLOrca.short_walk]

theorem check_limit_unlimited (s : CLOrca)
    (h : s.config.arguments_limit = unlimited_arguments) : s.check_limit = s := by
  simp [CLOrca.check_limit, h]

theorem check_limit_nonneg (s : CLOrca) (hlim : is_int s.config.arguments_limit)
    (h0 : 0 ≤ s.config.arguments_limit) :
    s.check_limit.error =
      if s.config.arguments_limit < s.arguments.length then Error.TooMuchArguments
      else s.error := by
  unfold CLOrca.check_limit
  rw [to_size_t_nonneg _ h0 hlim]
  have hne : s.config.arguments_limit ≠ unlimited_arguments := by
    unfold unlimited_arguments; omega
  have e : s.arguments.length > s.config.arguments_limit.toNat ↔
      s.config.arguments_limit < s.arguments.length := by omega
  simp only [hne, ne_eq, not_false_eq_true, true_and, e]
  split <;> rfl

theorem check_limit_frame (s : CLOrca) :
    s.check_limit = { s with error := s.check_limit.error } := by
  unfold CLOrca.check_limit
  split <;> rfl


theorem load_arguments_alias_value (s : CLOrca) (a v : Str) (ps : List Str)
    (f : Fin s.options.length)
    (hform : (∃ rest, a = '-' :: '-' :: rest) ∨ (∃ c, a = ['-', c]))
    (hsep : SEPARATOR ∉ a) (hfind : s.find_option a = some f)
    (hc : s.options[f.val].is_compound = true) (hw : s.waiting_value_option = none)
    (hv : v ≠ [] ∧ v.head? ≠ some '-') (hps : ∀ p ∈ ps, p ≠ [] ∧ p.head? ≠ some '-') :
    s.load_arguments (a :: v :: ps) = some { s with
      options := s.options.set f.val { s.options[f.val] with
        provided := true, values := s.options[f.val].values ++ [v] },
      arguments := s.arguments ++ ps } := by
  have hinfo := get_option_info_no_separator a hsep
  have h1 : s.load_argument a = some { s with
      options := s.options.set f.val { s.options[f.val] with provided := true },
      waiting_value_option := some f.val } := by
    rw [(load_argument_alias s a hform []).1]
    exact load_option_compound_wait s a f (by rw [hinfo]; exact hfind) hw hc (by rw [hinfo])
  rw [CLOrca.load_arguments, h1]
  simp only
  rw [CLOrca.load_arguments, load_argument_value _ v hv.1 hv.2 f.val rfl (by simp)]
  simp only
  rw [load_arguments_plain _ ps hps rfl]
  simp [List.set_set, hw]

/-- C1: for the argument vector `[exe, a, v, p1, ..., pn]`, where `a` is a long alias or a
one-character short alias without `=` that `find_option` resolves to a Compound option `f`
whose values are empty, and `v`, `p1`, ..., `pn` are non-empty and do not start with `-`:
construction completes, `f.values` is `[v]`, `f.provided` is true, `get_arguments()` is
`[p1, ..., pn]`, and `get_error()` is NoError when the limit is unlimited or `n <= limit`. -/
theorem construct_value_then_arguments (options : List Option) (default_arguments : List Str)
    (config : Config) (exe a v : Str) (ps : List Str) (f : Fin options.length)
    (hform : (∃ rest, a = '-' :: '-' :: rest) ∨ (∃ c, a = ['-', c]))
    (hsep : SEPARATOR ∉ a)
    (hfind : (CLOrca.init options default_arguments config).find_option a = some f)
    (hcomp : options[f.val].type = OptionType.Compound)
    (hvals : options[f.val].values = [])
    (hv : v ≠ [] ∧ v.head? ≠ some '-')
    (hps : ∀ p ∈ ps, p ≠ [] ∧ p.head? ≠ some '-')
    (hlim : is_int config.arguments_limit) :
    ∃ s, CLOrca.construct (exe :: a :: v :: ps) options default_arguments config = some s ∧
      (∃ o, s.options[f.val]? = some o ∧ o.values = [v] ∧ o.provided = true) ∧
      s.get_arguments = ps ∧
      ((config.arguments_limit = unlimited_arguments ∨ (ps.length : Int) ≤ config.arguments_limit)
        → s.get_error = Error.NoError) := by
  have hc : options[f.val].is_compound = true := by
    unfold Option.is_compound; rw [hcomp]; rfl
  have hload := load_arguments_alias_value
    { CLOrca.init options default_arguments config with executable_name := filename exe }
    a v ps f hform hsep hfind hc rfl hv hps
  obtain ⟨s1, hs1, ho, ha, he, hcfg, hw⟩ : ∃ s1 : CLOrca,
      CLOrca.load_arguments
        { CLOrca.init options default_arguments config with executable_name := filename exe }
        (a :: v :: ps) = some s1 ∧
      s1.options = options.set f.val { options[f.val] with
        provided := true, values := options[f.val].values ++ [v] } ∧
      s1.arguments = ps ∧ s1.error = Error.NoError ∧ s1.config = config ∧
      s1.waiting_value_option = none :=
    ⟨_, hload, rfl, by simp [CLOrca.init], rfl, rfl, rfl⟩
  refine ⟨s1.check_limit, ?_, ?_, ?_, ?_⟩
  · unfold CLOrca.construct CLOrca.load_options
    simp only
    rw [hs1]
    simp only [CLOrca.check_waiting, hw, Option.map_some']
  · rw [check_limit_frame]
    refine ⟨_, List.getElem?_eq_getElem (by simp [ho]), ?_, ?_⟩
    · simp [ho, hvals]
    · simp [ho]
  · rw [check_limit_frame]
    simp [CLOrca.get_arguments, ha]
  · intro hcase
    rcases hcase with hu | hle
    · rw [check_limit_unlimited _ (by rw [hcfg]; exact hu)]
      exact he
    · have h0 : (0 : Int) ≤ s1.config.arguments_limit := by rw [hcfg]; omega
      unfold CLOrca.get_error
      rw [check_limit_nonneg _ (by rw [hcfg]; exact hlim) h0, hcfg, ha]
      have : ¬ (config.arguments_limit < (ps.length : Int)) := by omega
      simp only [this, if_false]
      exact he


theorem decl_getElem (l l' : List Option) (h : l'.map Option.decl = l.map Option.decl) (k : Nat)
    (h1 : k < l'.length) (h2 : k < l.length) : l'[k].decl = l[k].decl := by
  have := congrArg (fun m => m[k]?) h
  simpa [List.getElem?_map, List.getElem?_eq_getElem h1, List.getElem?_eq_getElem h2] using this

theorem find_option_transport (s s1 : CLOrca) (x : Str)
    (hd : s1.options.map Option.decl = s.options.map Option.decl) (i : Fin s.options.length)
    (h : s.find_option x = some i) :
    ∃ i1 : Fin s1.options.length, s1.find_option x = some i1 ∧ i1.val = i.val ∧
      s1.options[i1.val].is_compound = s.options[i.val].is_compound := by
  have hc := find_option_congr s s1 x hd
  rw [h] at hc
  simp only [Option.map_some'] at hc
  obtain ⟨i1, hi1, hv⟩ := Option.map_eq_some'.mp hc
  refine ⟨i1, hi1, hv, ?_⟩
  have := decl_getElem s.options s1.options hd i1.val i1.isLt (hv ▸ i.isLt)
  rw [← is_compound_decl, this, is_compound_decl]
  simp [hv]

theorem load_option_simple_flag_props (s : CLOrca) (t : Str) (i : Fin s.options.length)
    (hsep : SEPARATOR ∉ t) (hf : s.find_option t = some i)
    (hw : s.waiting_value_option = none) (hc : s.options[i.val].is_compound = false) :
    ∃ s1 : CLOrca, s.load_option t = some s1 ∧
      s1.options.map Option.decl = s.options.map Option.decl ∧
      (∀ k : Nat, s1.options[k]?.map (fun o : Option => o.values) = s.options[k]?.map (fun o : Option => o.values)) ∧
      (∀ (k : Nat) (o : Option), s.options[k]? = some o → o.provided = true →
        ∃ o' : Option, s1.options[k]? = some o' ∧ o'.provided = true) ∧
      (∃ o' : Option, s1.options[i.val]? = some o' ∧ o'.provided = true) ∧
      s1.arguments = s.arguments ∧ s1.waiting_value_option = none ∧ s1.error = s.error := by
  have hinfo := get_option_info_no_separator t hsep
  refine ⟨_, load_option_simple_flag s t i (by rw [hinfo]; exact hf) hw hc (by rw [hinfo]),
    map_decl_set _ _ _ i.isLt rfl, ?_, ?_, ?_, rfl, hw, rfl⟩
  · intro k
    simp only [List.getElem?_set]
    by_cases hk : i.val = k
    · subst hk
      simp [List.getElem?_eq_getElem i.isLt]
    · simp [hk]
  · intro k o hko hp
    simp only [List.getElem?_set]
    by_cases hk : i.val = k
    · subst hk
      simp
    · simp [hk, hko, hp]
  · simp

theorem load_option_compound_value_props (s : CLOrca) (a v : Str) (j : Fin s.options.length)
    (hsep : SEPARATOR ∉ a) (hf : s.find_option a = some j)
    (hw : s.waiting_value_option = none) (hc : s.options[j.val].is_compound = true)
    (hv : v ≠ []) :
    ∃ s1 : CLOrca, s.load_option (a ++ SEPARATOR :: v) = some s1 ∧
      s1.options.map Option.decl = s.options.map Option.decl ∧
      (∀ k : Nat, s1.options[k]?.map (fun o : Option => o.values) =
        if k = j.val then s.options[k]?.map (fun o : Option => o.values ++ [v])
        else s.options[k]?.map (fun o : Option => o.values)) ∧
      (∀ (k : Nat) (o : Option), s.options[k]? = some o → o.provided = true →
        ∃ o' : Option, s1.options[k]? = some o' ∧ o'.provided = true) ∧
      (∃ o' : Option, s1.options[j.val]? = some o' ∧ o'.provided = true) ∧
      s1.arguments = s.arguments ∧ s1.waiting_value_option = none ∧ s1.error = s.error := by
  have hinfo := get_option_info_separator a v hsep
  refine ⟨_, load_option_compound_value s _ j (by rw [hinfo]; exact hf) hw hc (by rw [hinfo])
      (by rw [hinfo]; exact hv),
    map_decl_set _ _ _ j.isLt rfl, ?_, ?_, ?_, rfl, hw, rfl⟩
  · intro k
    simp only [List.getElem?_set, hinfo]
    by_cases hk : k = j.val
    · subst hk
      simp [List.getElem?_eq_getElem j.isLt]
    · have hk' : ¬ j.val = k := fun e => hk e.symm
      simp [hk, hk']
  · intro k o hko hp
    simp only [List.getElem?_set]
    by_cases hk : j.val = k
    · subst hk
      simp
    · simp [hk, hko, hp]
  · simp


theorem short_walk_cluster (cs : List Char) (f : Char) (v : Str) (j : Nat) (s : CLOrca)
    (hw : s.waiting_value_option = none)
    (hcs : ∀ c ∈ cs, c ≠ SEPARATOR ∧ ∃ i : Fin s.options.length,
      s.find_option ['-', c] = some i ∧ s.options[i.val].is_compound = false)
    (hf : f ≠ SEPARATOR)
    (hfind : ∃ jj : Fin s.options.length, s.find_option ['-', f] = some jj ∧ jj.val = j ∧
      s.options[jj.val].is_compound = true)
    (hv : v ≠ []) :
    ∃ s' : CLOrca, s.short_walk (cs ++ f :: SEPARATOR :: v) = some s' ∧
      s'.options.map Option.decl = s.options.map Option.decl ∧
      (∀ k : Nat, s'.options[k]?.map (fun o : Option => o.values) =
        if k = j then s.options[k]?.map (fun o : Option => o.values ++ [v])
        else s.options[k]?.map (fun o : Option => o.values)) ∧
      (∀ (k : Nat) (o : Option), s.options[k]? = some o → o.provided = true →
        ∃ o' : Option, s'.options[k]? = some o' ∧ o'.provided = true) ∧
      (∀ c ∈ cs, ∀ i : Fin s.options.length, s.find_option ['-', c] = some i →
        ∃ o' : Option, s'.options[i.val]? = some o' ∧ o'.provided = true) ∧
      (∃ o' : Option, s'.options[j]? = some o' ∧ o'.provided = true) ∧
      s'.arguments = s.arguments ∧ s'.waiting_value_option = none ∧ s'.error = s.error := by
  have hdash : SEPARATOR ≠ '-' := by decide
  induction cs generalizing s with
  | nil =>
    obtain ⟨jj, hjj, hval, hcomp⟩ := hfind
    subst hval
    have hsep : SEPARATOR ∉ ['-', f] := by
      simp [hdash, Ne.symm hf]
    obtain ⟨s1, h1, hd, hvals, hprov, hj, ha, hw1, he⟩ :=
      load_option_compound_value_props s ['-', f] v jj hsep hjj hw hcomp hv
    refine ⟨s1, ?_, hd, hvals, hprov, ?_, hj, ha, hw1, he⟩
    · simpa [CLOrca.short_walk] using h1
    · intro c hc
      cases hc
  | cons c cs ih =>
    obtain ⟨hc, i, hi, hci⟩ := hcs c (by simp)
    have hsep : SEPARATOR ∉ ['-', c] := by
      simp [hdash, Ne.symm hc]
    obtain ⟨s1, h1, hd1, hvals1, hprov1, hi1, ha1, hw1, he1⟩ :=
      load_option_simple_flag_props s ['-', c] i hsep hi hw hci
    have hhead : (cs ++ f :: SEPARATOR :: v).head? ≠ some SEPARATOR := by
      cases cs with
      | nil => simpa using hf
      | cons c' cs' =>
        have := (hcs c' (by simp)).1
        simpa using this
    have hcs1 : ∀ c' ∈ cs, c' ≠ SEPARATOR ∧ ∃ i : Fin s1.options.length,
        s1.find_option ['-', c'] = some i ∧ s1.options[i.val].is_compound = false := by
      intro c' hc'
      obtain ⟨hne, i', hi', hci'⟩ := hcs c' (by simp [hc'])
      obtain ⟨i1, hf1, _, hcomp1⟩ := find_option_transport s s1 _ hd1 i' hi'
      exact ⟨hne, i1, hf1, by rw [hcomp1, hci']⟩
    have hfind1 : ∃ jj : Fin s1.options.length, s1.find_option ['-', f] = some jj ∧
        jj.val = j ∧ s1.options[jj.val].is_compound = true := by
      obtain ⟨jj, hjj, hval, hcomp⟩ := hfind
      obtain ⟨j1, hf1, hv1, hcomp1⟩ := find_option_transport s s1 _ hd1 jj hjj
      exact ⟨j1, hf1, by rw [hv1, hval], by rw [hcomp1, hcomp]⟩
    obtain ⟨s', h', hd', hvals', hprov', hcs', hj', ha', hw', he'⟩ := ih s1 hw1 hcs1 hfind1
    refine ⟨s', ?_, hd'.trans hd1, ?_, ?_, ?_, hj', ha'.trans ha1, hw', he'.trans he1⟩
    · rw [List.cons_append, CLOrca.short_walk]
      simp only [hhead, if_false, h1]
      exact h'
    · intro k
      rw [hvals' k]
      split
      · rename_i hk
        have := hvals1 k
        cases h1k : s1.options[k]? <;> cases hsk : s.options[k]? <;>
          simp [h1k, hsk] at this ⊢
        exact this
      · exact hvals1 k
    · intro k o hko hp
      obtain ⟨o1, ho1, hp1⟩ := hprov1 k o hko hp
      exact hprov' k o1 ho1 hp1
    · intro c' hc' i' hi'
      rcases List.mem_cons.mp hc' with rfl | hmem
      · have : i' = i := by
          rw [hi] at hi'
          injection hi' with hi'
          exact hi'.symm
        subst this
        obtain ⟨o1, ho1, hp1⟩ := hi1
        exact hprov' _ o1 ho1 hp1
      · obtain ⟨i1, hf1, hv1, _⟩ := find_option_transport s s1 _ hd1 i' hi'
        have := hcs' c' hmem i1 hf1
        rwa [hv1] at this


theorem is_compound_of_type (o : Option) :
    (o.type = OptionType.Compound → o.is_compound = true) ∧
    (o.type = OptionType.Simple → o.is_compound = false) := by
  constructor <;> intro h <;> simp [Option.is_compound, h]

/-- C2: in a state where no option awaits a value, the token `-c1...ckf=v` (no `ci` and not
`f` is `=`, the character after the leading `-` is not `-`, `v` is not empty), where every
`-ci` resolves to a Simple option and `-f` to a Compound option, is processed to the end:
each of these Simple options and the Compound option are provided afterwards, the Compound
option's values are its former values followed by `v`, every other option keeps its values,
the positional arguments and the recorded error are unchanged, and no option awaits a
value. -/
theorem short_cluster_with_value (s : CLOrca) (cs : List Char) (f : Char) (v : Str)
    (j : Fin s.options.length)
    (hw : s.waiting_value_option = none)
    (hcs : ∀ c ∈ cs, c ≠ SEPARATOR ∧ ∃ i : Fin s.options.length,
      s.find_option ['-', c] = some i ∧ s.options[i.val].type = OptionType.Simple)
    (hf : f ≠ SEPARATOR) (hfind : s.find_option ['-', f] = some j)
    (hcomp : s.options[j.val].type = OptionType.Compound)
    (hhead : (cs ++ [f]).head? ≠ some '-') (hv : v ≠ []) :
    ∃ s' : CLOrca, s.load_argument ('-' :: (cs ++ f :: SEPARATOR :: v)) = some s' ∧
      s'.options.length = s.options.length ∧
      (∀ c ∈ cs, ∀ i : Fin s.options.length, s.find_option ['-', c] = some i →
        ∃ o' : Option, s'.options[i.val]? = some o' ∧ o'.provided = true) ∧
      (∃ o' : Option, s'.options[j.val]? = some o' ∧ o'.provided = true ∧
        o'.values = s.options[j.val].values ++ [v]) ∧
      (∀ (k : Nat) (o : Option), k ≠ j.val → s.options[k]? = some o →
        ∃ o' : Option, s'.options[k]? = some o' ∧ o'.values = o.values) ∧
      s'.get_arguments = s.arguments ∧ s'.waiting_value_option = none ∧
      s'.get_error = s.error := by
  have hhead' : (cs ++ f :: SEPARATOR :: v).head? ≠ some '-' := by
    cases cs with
    | nil => simpa using hhead
    | cons c cs => simpa using hhead
  obtain ⟨s', h', hd, hvals, _, hcs', ⟨oj, hoj, hpj⟩, ha, hw', he⟩ :=
    short_walk_cluster cs f v j.val s hw
      (fun c hc => by
        obtain ⟨hne, i, hi, hti⟩ := hcs c hc
        exact ⟨hne, i, hi, (is_compound_of_type _).2 hti⟩)
      hf ⟨j, hfind, rfl, (is_compound_of_type _).1 hcomp⟩ hv
  refine ⟨s', ?_, ?_, hcs', ⟨oj, hoj, hpj, ?_⟩, ?_, ha, hw', he⟩
  · rw [load_argument_short s _ hhead']
    exact h'
  · simpa using congrArg List.length hd
  · have := hvals j.val
    simpa [hoj, List.getElem?_eq_getElem j.isLt] using this
  · intro k o hk hko
    have := hvals k
    simp only [hk, if_false, hko, Option.map_some'] at this
    obtain ⟨o', ho', hv'⟩ := Option.map_eq_some'.mp this
    exact ⟨o', ho', hv'⟩


theorem short_walk_inv (cs : List Char) (s s' : CLOrca) (h : s.short_walk cs = some s') :
    s'.options.map Option.decl = s.options.map Option.decl ∧ s'.arguments = s.arguments ∧
    s'.config = s.config ∧ s'.default_arguments = s.default_arguments ∧
    s'.executable_name = s.executable_name ∧ (s.wf → s'.wf) ∧
    (s.error ≠ Error.TooMuchArguments → s'.error ≠ Error.TooMuchArguments) := by
  induction cs generalizing s with
  | nil =>
    simp only [CLOrca.short_walk] at h
    injection h with h
    subst h
    exact ⟨rfl, rfl, rfl, rfl, rfl, id, id⟩
  | cons c cs ih =>
    rw [CLOrca.short_walk] at h
    split at h
    · exact load_option_inv s s' _ h
    · split at h
      · cases h
      · rename_i s1 h1
        obtain ⟨a1, a2, a3, a4, a5, a6, a7⟩ := load_option_inv s s1 _ h1
        obtain ⟨b1, b2, b3, b4, b5, b6, b7⟩ := ih s1 h
        exact ⟨b1.trans a1, b2.trans a2, b3.trans a3, b4.trans a4, b5.trans a5,
          fun hwf => b6 (a6 hwf), fun he => b7 (a7 he)⟩

theorem short_walk_total (cs : List Char) (s : CLOrca) (hwf : s.wf) :
    ∃ s', s.short_walk cs = some s' := by
  induction cs generalizing s with
  | nil => exact ⟨s, rfl⟩
  | cons c cs ih =>
    rw [CLOrca.short_walk]
    split
    · exact load_option_total s _ hwf
    · obtain ⟨s1, h1⟩ := load_option_total s ['-', c] hwf
      rw [h1]
      exact ih s1 ((load_option_inv s s1 _ h1).2.2.2.2.2.1 hwf)

theorem load_argument_inv (s s' : CLOrca) (t : Str) (h : s.load_argument t = some s') :
    s'.options.map Option.decl = s.options.map Option.decl ∧
    s'.config = s.config ∧ s'.default_arguments = s.default_arguments ∧ (s.wf → s'.wf) ∧
    (s.error ≠ Error.TooMuchArguments → s'.error ≠ Error.TooMuchArguments) := by
  unfold CLOrca.load_argument at h
  split at h
  · cases h
  · rename_i c0 hc0
    split at h
    · split at h
      · obtain ⟨a1, _, a3, a4, _, a6, a7⟩ := load_option_inv s s' _ h
        exact ⟨a1, a3, a4, a6, a7⟩
      · rw [load_simple_options_eq] at h
        obtain ⟨a1, _, a3, a4, _, a6, a7⟩ := short_walk_inv _ s s' h
        exact ⟨a1, a3, a4, a6, a7⟩
    · split at h
      · rename_i w hw
        split at h
        · cases h
        · rename_i wo hwo
          injection h with h
          subst h
          have hlt : w < s.options.length := by
            rcases List.getElem?_eq_some_iff.mp hwo with ⟨hlt, _⟩
            exact hlt
          have hwo' : s.options[w] = wo := by
            rcases List.getElem?_eq_some_iff.mp hwo with ⟨_, e⟩
            exact e
          refine ⟨map_decl_set _ _ _ hlt (by rw [hwo']; rfl), rfl, rfl,
            fun _ => wf_of_waiting_none _ rfl, id⟩
      · rename_i hw
        injection h with h
        subst h
        exact ⟨rfl, rfl, rfl, fun hwf => wf_congr _ _ hwf rfl rfl, id⟩

theorem load_argument_total (s : CLOrca) (t : Str) (hwf : s.wf) (hne : t ≠ []) :
    ∃ s', s.load_argument t = some s' := by
  cases t with
  | nil => exact absurd rfl hne
  | cons c t =>
    unfold CLOrca.load_argument
    simp only [List.getElem?_cons_zero]
    split
    · split
      · exact load_option_total s _ hwf
      · rw [load_simple_options_eq]
        exact short_walk_total _ s hwf
    · cases hw : s.waiting_value_option with
      | none => exact ⟨_, rfl⟩
      | some w =>
        obtain ⟨o, ho, _⟩ := hwf w hw
        simp only [ho]
        exact ⟨_, rfl⟩

theorem load_arguments_inv (ts : List Str) (s s' : CLOrca) (h : s.load_arguments ts = some s') :
    s'.options.map Option.decl = s.options.map Option.decl ∧
    s'.config = s.config ∧ s'.default_arguments = s.default_arguments ∧ (s.wf → s'.wf) ∧
    (s.error ≠ Error.TooMuchArguments → s'.error ≠ Error.TooMuchArguments) := by
  induction ts generalizing s with
  | nil =>
    simp only [CLOrca.load_arguments] at h
    injection h with h
    subst h
    exact ⟨rfl, rfl, rfl, id, id⟩
  | cons t ts ih =>
    rw [CLOrca.load_arguments] at h
    split at h
    · cases h
    · rename_i s1 h1
      obtain ⟨a1, a2, a3, a4, a5⟩ := load_argument_inv s s1 t h1
      obtain ⟨b1, b2, b3, b4, b5⟩ := ih s1 h
      exact ⟨b1.trans a1, b2.trans a2, b3.trans a3, fun hwf => b4 (a4 hwf), fun he => b5 (a5 he)⟩

theorem load_arguments_total (ts : List Str) (s : CLOrca) (hwf : s.wf)
    (hne : ∀ t ∈ ts, t ≠ []) : ∃ s', s.load_arguments ts = some s' := by
  induction ts generalizing s with
  | nil => exact ⟨s, rfl⟩
  | cons t ts ih =>
    obtain ⟨s1, h1⟩ := load_argument_total s t hwf (hne t (by simp))
    rw [CLOrca.load_arguments, h1]
    exact ih s1 ((load_argument_inv s s1 t h1).2.2.2.1 hwf) (fun t' ht' => hne t' (by simp [ht']))

theorem load_arguments_append (ts us : List Str) (s : CLOrca) :
    s.load_arguments (ts ++ us) =
      match s.load_arguments ts with
      | none => none
      | some s1 => s1.load_arguments us := by
  induction ts generalizing s with
  | nil => simp [CLOrca.load_arguments]
  | cons t ts ih =>
    rw [List.cons_append, CLOrca.load_arguments, CLOrca.load_arguments]
    cases s.load_argument t with
    | none => rfl
    | some s1 => exact ih s1


theorem check_waiting_inv (s s' : CLOrca) (h : s.check_waiting = some s') :
    s'.arguments = s.arguments ∧ s'.config = s.config ∧ s'.options = s.options ∧
    (s.error ≠ Error.TooMuchArguments → s'.error ≠ Error.TooMuchArguments) ∧
    ((s.waiting_value_option = none ∧ s'.error = s.error) ∨
     (s.waiting_value_option ≠ none ∧ s'.error = Error.MissingValue)) := by
  unfold CLOrca.check_waiting at h
  split at h
  · rename_i hw
    injection h with h
    subst h
    exact ⟨rfl, rfl, rfl, id, Or.inl ⟨hw, rfl⟩⟩
  · rename_i w hw
    split at h
    · cases h
    · injection h with h
      subst h
      exact ⟨rfl, rfl, rfl, fun _ => by simp, Or.inr ⟨by simp [hw], rfl⟩⟩

theorem check_waiting_total (s : CLOrca) (hwf : s.wf) : ∃ s', s.check_waiting = some s' := by
  unfold CLOrca.check_waiting
  cases hw : s.waiting_value_option with
  | none => exact ⟨s, rfl⟩
  | some w =>
    obtain ⟨a, ha⟩ := waiting_alias_of_wf s hwf w hw
    simp [ha]

theorem construct_cases (argv : List Str) (options : List Option) (default_arguments : List Str)
    (config : Config) (s : CLOrca)
    (h : CLOrca.construct argv options default_arguments config = some s) :
    ∃ s0 s1 s2 : CLOrca,
      s0.options = options ∧ s0.config = config ∧ s0.error = Error.NoError ∧
      s0.waiting_value_option = none ∧ s0.arguments = [] ∧
      s0.load_arguments argv.tail = some s1 ∧
      s1.check_waiting = some s2 ∧ s = s2.check_limit := by
  unfold CLOrca.construct CLOrca.load_options at h
  cases argv with
  | nil =>
    simp only at h
    obtain ⟨s2, h2, h3⟩ := Option.map_eq_some'.mp h
    exact ⟨_, _, s2, rfl, rfl, rfl, rfl, rfl, rfl, h2, h3.symm⟩
  | cons exe rest =>
    simp only at h
    split at h
    · cases h
    · rename_i s1 h1
      obtain ⟨s2, h2, h3⟩ := Option.map_eq_some'.mp h
      exact ⟨_, s1, s2, rfl, rfl, rfl, rfl, rfl, h1, h2, h3.symm⟩

/-- C7: after a construction that completes with a limit `L >= 0`, `get_error()` is
TooMuchArguments exactly when the number of positional arguments is greater than `L` (so
it replaces whatever the pass had recorded, and a count equal to `L` does not set it); with
the limit `unlimited_arguments` the error is never TooMuchArguments. -/
theorem too_much_arguments_iff (argv : List Str) (options : List Option)
    (default_arguments : List Str) (config : Config) (s : CLOrca)
    (h : CLOrca.construct argv options default_arguments config = some s)
    (hlim : is_int config.arguments_limit) :
    (0 ≤ config.arguments_limit →
      (s.get_error = Error.TooMuchArguments ↔
        config.arguments_limit < (s.get_arguments.length : Int))) ∧
    (config.arguments_limit = unlimited_arguments → s.get_error ≠ Error.TooMuchArguments) := by
  obtain ⟨s0, s1, s2, _, hc0, he0, _, _, h1, h2, h3⟩ :=
    construct_cases argv options default_arguments config s h
  obtain ⟨_, hc1, _, _, he1⟩ := load_arguments_inv _ _ _ h1
  obtain ⟨ha2, hc2, _, he2, _⟩ := check_waiting_inv _ _ h2
  have hcfg : s2.config = config := by rw [hc2, hc1, hc0]
  have herr : s2.error ≠ Error.TooMuchArguments := he2 (he1 (by simp [he0]))
  have hargs : s.get_arguments = s2.arguments := by
    rw [h3, check_limit_frame]; rfl
  subst h3
  constructor
  · intro h0
    unfold CLOrca.get_error
    rw [check_limit_nonneg s2 (by rw [hcfg]; exact hlim) (by rw [hcfg]; exact h0), hargs, hcfg]
    split
    · rename_i hlt
      exact ⟨fun _ => hlt, fun _ => rfl⟩
    · rename_i hlt
      exact ⟨fun e => absurd e herr, fun e => absurd e hlt⟩
  · intro hu
    unfold CLOrca.get_error
    rw [check_limit_unlimited s2 (by rw [hcfg]; exact hu)]
    exact herr

theorem load_option_simple_value (s : CLOrca) (a v : Str) (i : Fin s.options.length)
    (hwf : s.wf) (hsep : SEPARATOR ∉ a) (hf : s.find_option a = some i)
    (hc : s.options[i.val].is_compound = false) :
    ∃ s' : CLOrca, s.load_option (a ++ SEPARATOR :: v) = some s' ∧
      s'.error = Error.OptionCantHoldValue ∧
      s'.options.map (fun o : Option => o.values) = s.options.map (fun o : Option => o.values) ∧
      s'.arguments = s.arguments := by
  have hinfo := get_option_info_separator a v hsep
  have hc' : Option.is_compound { s.options[i.val] with provided := true } = false := hc
  have hwf1 : CLOrca.wf
      { s with options := s.options.set i.val { s.options[i.val] with provided := true } } :=
    wf_congr _ _ hwf (map_decl_set _ _ _ i.isLt rfl) rfl
  obtain ⟨s2, hs2⟩ := interrupt_waiting_total _ hwf1
  obtain ⟨ho, ha, _⟩ := interrupt_waiting_cases _ _ hs2
  simp only at hs2 ho ha
  refine ⟨{ s2 with error := Error.OptionCantHoldValue }, ?_, rfl, ?_, ha⟩
  · simp only [CLOrca.load_option, hinfo, hf, hs2, hc']
    simp
  · simp only [ho, List.map_set]
    apply List.ext_getElem
    · simp
    · intro n h1 h2
      simp only [List.getElem_set, List.getElem_map]
      split
      · rename_i e; subst e; rfl
      · rfl


theorem map_values_set (l : List Option) (i : Nat) (o : Option) (h : i < l.length)
    (ho : o.values = l[i].values) :
    (l.set i o).map (fun o : Option => o.values) = l.map (fun o : Option => o.values) := by
  rw [List.map_set]
  apply List.ext_getElem
  · simp
  · intro n h1 h2
    simp only [List.getElem_set, List.getElem_map]
    split
    · rename_i e; subst e; exact ho
    · rfl

theorem load_option_no_separator (s : CLOrca) (t : Str) (hwf : s.wf) (hsep : SEPARATOR ∉ t) :
    ∃ s' : CLOrca, s.load_option t = some s' ∧
      s'.options.map (fun o : Option => o.values) = s.options.map (fun o : Option => o.values) ∧
      (∀ j : Fin s.options.length, s.find_option t = some j →
        s.options[j.val].is_compound = true → s'.waiting_value_option = some j.val) := by
  have hinfo := get_option_info_no_separator t hsep
  cases hf : s.find_option t with
  | none =>
    refine ⟨_, load_option_not_found s t (by rw [hinfo]; exact hf), rfl, ?_⟩
    intro j hj
    cases hj
  | some ci =>
    have hwf1 : CLOrca.wf
        { s with options := s.options.set ci.val { s.options[ci.val] with provided := true } } :=
      wf_congr _ _ hwf (map_decl_set _ _ _ ci.isLt rfl) rfl
    obtain ⟨s2, hs2⟩ := interrupt_waiting_total _ hwf1
    obtain ⟨ho, _, _⟩ := interrupt_waiting_cases _ _ hs2
    simp only at hs2 ho
    have hvals : s2.options.map (fun o : Option => o.values) =
        s.options.map (fun o : Option => o.values) := by
      rw [ho]; exact map_values_set _ _ _ ci.isLt rfl
    by_cases hc : s.options[ci.val].is_compound = true
    · have hc' : Option.is_compound { s.options[ci.val] with provided := true } = true := hc
      refine ⟨{ s2 with waiting_value_option := some ci.val }, ?_, hvals, ?_⟩
      · simp only [CLOrca.load_option, hinfo, hf, hs2, hc']
        simp
      · intro j hj _
        injection hj with hj
        rw [hj]
    · have hc' : Option.is_compound { s.options[ci.val] with provided := true } = false := by
        simpa using hc
      refine ⟨s2, ?_, hvals, ?_⟩
      · simp only [CLOrca.load_option, hinfo, hf, hs2, hc']
        simp
      · intro j hj hcj
        injection hj with hj
        subst hj
        exact absurd hcj hc

theorem short_walk_no_separator (cs : List Char) (f : Char) (s : CLOrca) (hwf : s.wf)
    (hsep : SEPARATOR ∉ cs ++ [f]) :
    ∃ s' : CLOrca, s.short_walk (cs ++ [f]) = some s' ∧
      s'.options.map (fun o : Option => o.values) = s.options.map (fun o : Option => o.values) ∧
      (∀ j : Fin s.options.length, s.find_option ['-', f] = some j →
        s.options[j.val].is_compound = true → s'.waiting_value_option = some j.val) := by
  have hdash : SEPARATOR ≠ '-' := by decide
  induction cs generalizing s with
  | nil =>
    have hf : SEPARATOR ≠ f := by simpa using hsep
    obtain ⟨s', h, hv, hw⟩ := load_option_no_separator s ['-', f] hwf (by simp [hdash, hf])
    refine ⟨s', ?_, hv, hw⟩
    simp only [List.nil_append, CLOrca.short_walk, List.head?_nil, h]
    simp
  | cons c cs ih =>
    have hc : SEPARATOR ≠ c := fun e => hsep (by simp [e])
    have hrest : SEPARATOR ∉ cs ++ [f] := fun e => hsep (by simp at e ⊢; tauto)
    have hhead : (cs ++ [f]).head? ≠ some SEPARATOR := by
      intro e
      exact hrest (List.mem_of_mem_head? e)
    obtain ⟨s1, h1, hv1, _⟩ := load_option_no_separator s ['-', c] hwf (by simp [hdash, hc])
    obtain ⟨hd1, _, _, _, _, hwf1, _⟩ := load_option_inv s s1 _ h1
    obtain ⟨s', h', hv', hw'⟩ := ih s1 (hwf1 hwf) hrest
    refine ⟨s', ?_, hv'.trans hv1, ?_⟩
    · rw [List.cons_append, CLOrca.short_walk]
      simp only [hhead, if_false, h1]
      exact h'
    · intro j hj hcj
      obtain ⟨j1, hj1, hval, hcomp⟩ := find_option_transport s s1 _ hd1 j hj
      rw [← hval]
      exact hw' j1 hj1 (by rw [hcomp, hcj])


theorem check_waiting_some (s : CLOrca) (w : Nat) (hw : s.waiting_value_option = some w)
    (hwf : s.wf) : s.check_waiting = some { s with error := Error.MissingValue } := by
  obtain ⟨a, ha⟩ := waiting_alias_of_wf s hwf w hw
  simp [CLOrca.check_waiting, hw, ha]

theorem wf_init (options : List Option) (default_arguments : List Str) (config : Config)
    (exe : Str) :
    CLOrca.wf { CLOrca.init options default_arguments config with
      executable_name := exe } :=
  wf_of_waiting_none _ rfl

/-- C4: when the last token of the argument vector (all of whose tokens are non-empty) is an
option token without separator whose last sub-token resolves to a Compound option (a long
alias such as `--file`, or a short cluster such as `-f` or `-lf` ending in that option),
construction completes, the values of every option are those held before this last token
was processed, and `get_error()` is MissingValue when the limit is unlimited or the number
of positional arguments does not exceed it. -/
theorem trailing_compound_option_missing_value (options : List Option)
    (default_arguments : List Str) (config : Config) (exe : Str) (ts : List Str) (t sub : Str)
    (j : Fin options.length)
    (hts : ∀ u ∈ ts, u ≠ [])
    (hform : (∃ rest, t = '-' :: '-' :: rest ∧ sub = t) ∨
      (∃ cs f, t = '-' :: (cs ++ [f]) ∧ (cs ++ [f]).head? ≠ some '-' ∧ sub = ['-', f]))
    (hsep : SEPARATOR ∉ t)
    (hfind : (CLOrca.init options default_arguments config).find_option sub = some j)
    (hcomp : options[j.val].type = OptionType.Compound)
    (hlim : is_int config.arguments_limit) :
    ∃ s1 s : CLOrca,
      CLOrca.load_arguments
        { CLOrca.init options default_arguments config with executable_name := filename exe }
        ts = some s1 ∧
      CLOrca.construct (exe :: (ts ++ [t])) options default_arguments config = some s ∧
      s.options.map (fun o : Option => o.values) = s1.options.map (fun o : Option => o.values) ∧
      s.waiting_value_option = some j.val ∧
      ((config.arguments_limit = unlimited_arguments ∨
          (s.get_arguments.length : Int) ≤ config.arguments_limit) →
        s.get_error = Error.MissingValue) := by
  obtain ⟨s0, hs0, hwf0, ho0, hc0⟩ : ∃ s0 : CLOrca,
      s0 = { CLOrca.init options default_arguments config with executable_name := filename exe } ∧
      s0.wf ∧ s0.options = options ∧ s0.config = config :=
    ⟨_, rfl, wf_init _ _ _ _, rfl, rfl⟩
  have hfind0 : ∃ j0 : Fin s0.options.length, s0.find_option sub = some j0 ∧ j0.val = j.val ∧
      s0.options[j0.val].is_compound = true := by
    subst hs0
    exact ⟨j, hfind, rfl, (is_compound_of_type _).1 hcomp⟩
  obtain ⟨j0, hj0, hj0v, hj0c⟩ := hfind0
  obtain ⟨s1, h1⟩ := load_arguments_total ts s0 hwf0 hts
  obtain ⟨hd1, hc1, _, hwf1, _⟩ := load_arguments_inv ts s0 s1 h1
  obtain ⟨j1, hj1, hj1v, hj1c⟩ := find_option_transport s0 s1 sub hd1 j0 hj0
  have hlast : ∃ s2 : CLOrca, s1.load_argument t = some s2 ∧
      s2.options.map (fun o : Option => o.values) = s1.options.map (fun o : Option => o.values) ∧
      s2.waiting_value_option = some j.val := by
    rcases hform with ⟨rest, ht, hsub⟩ | ⟨cs, f, ht, hhead, hsub⟩
    · rw [hsub] at hj1
      obtain ⟨s2, h2, hv2, hw2⟩ := load_option_no_separator s1 t (hwf1 hwf0) hsep
      refine ⟨s2, ?_, hv2, ?_⟩
      · rw [ht, load_argument_long, ← ht]
        exact h2
      · rw [hw2 j1 hj1 (by rw [hj1c, hj0c]), hj1v, hj0v]
    · rw [hsub] at hj1
      have hsep' : SEPARATOR ∉ cs ++ [f] := fun e => hsep (by rw [ht]; exact List.mem_cons_of_mem _ e)
      obtain ⟨s2, h2, hv2, hw2⟩ := short_walk_no_separator cs f s1 (hwf1 hwf0) hsep'
      refine ⟨s2, ?_, hv2, ?_⟩
      · rw [ht, load_argument_short s1 _ hhead]
        exact h2
      · rw [hw2 j1 hj1 (by rw [hj1c, hj0c]), hj1v, hj0v]
  obtain ⟨s2, h2, hv2, hw2⟩ := hlast
  obtain ⟨_, hc2, _, hwf2, _⟩ := load_argument_inv s1 s2 t h2
  have hwf2' : s2.wf := hwf2 (hwf1 hwf0)
  have hcfg : s2.config = config := by rw [hc2, hc1, hc0]
  have hpass : s0.load_arguments (ts ++ [t]) = some s2 := by
    rw [load_arguments_append, h1]
    simp only [CLOrca.load_arguments, h2]
  refine ⟨s1, CLOrca.check_limit { s2 with error := Error.MissingValue }, hs0 ▸ h1, ?_, ?_, ?_, ?_⟩
  · unfold CLOrca.construct CLOrca.load_options
    simp only
    rw [← hs0, hpass]
    simp only [check_waiting_some s2 j.val hw2 hwf2', Option.map_some']
  · rw [check_limit_frame]
    exact hv2
  · rw [check_limit_frame]
    exact hw2
  · intro hcase
    unfold CLOrca.get_error
    rcases hcase with hu | hle
    · rw [check_limit_unlimited _ (by simp only [hcfg]; exact hu)]
    · have hargs : (CLOrca.check_limit { s2 with error := Error.MissingValue }).get_arguments =
          s2.arguments := by
        rw [check_limit_frame]; rfl
      rw [hargs] at hle
      have h0 : (0 : Int) ≤ config.arguments_limit := by omega
      rw [check_limit_nonneg _ (by simp only [hcfg]; exact hlim) (by simp only [hcfg]; exact h0)]
      simp only [hcfg]
      have : ¬ (config.arguments_limit < (s2.arguments.length : Int)) := by omega
      simp only [this, if_false]

/-- C5, amended: in a state whose waiting option, when there is one, is one of the options and
has an alias, the token `a=v` (any `v`, the empty one included), where `a` contains no `=`
and is a long alias or a one-character short alias that resolves to a Simple option, is
processed to the end; afterwards the error is OptionCantHoldValue, and neither the values
of any option nor the positional arguments have gained an entry. -/
theorem simple_option_with_value (s : CLOrca) (a v : Str) (i : Fin s.options.length)
    (hwf : s.wf)
    (hform : (∃ rest, a = '-' :: '-' :: rest) ∨ (∃ c, a = ['-', c]))
    (hsep : SEPARATOR ∉ a) (hf : s.find_option a = some i)
    (hsimple : s.options[i.val].type = OptionType.Simple) :
    ∃ s' : CLOrca, s.load_argument (a ++ SEPARATOR :: v) = some s' ∧
      s'.get_error = Error.OptionCantHoldValue ∧
      s'.options.map (fun o : Option => o.values) = s.options.map (fun o : Option => o.values) ∧
      s'.get_arguments = s.arguments := by
  obtain ⟨s', h, he, hv, ha⟩ :=
    load_option_simple_value s a v i hwf hsep hf ((is_compound_of_type _).2 hsimple)
  refine ⟨s', ?_, he, hv, ha⟩
  rw [(load_argument_alias s a hform v).2]
  exact h


theorem is_int_small (n : Int) (h1 : -1 ≤ n) (h2 : n ≤ 100) : is_int n := by
  unfold is_int
  constructor
  · have : -(2 : Int) ^ 31 ≤ -1 := by decide
    omega
  · have : (100 : Int) < 2 ^ 31 := by decide
    omega

/-- Witness of C1: `-f a.txt pos1 pos2` against a Compound `-f`. -/
theorem construct_value_then_arguments_witness :
    ∃ s, CLOrca.construct ["prog".toList, "-f".toList, "a.txt".toList, "pos1".toList, "pos2".toList]
        [input_options[1]] [] default_config = some s ∧
      (∃ o, s.options[0]? = some o ∧ o.values = ["a.txt".toList] ∧ o.provided = true) ∧
      s.get_arguments = ["pos1".toList, "pos2".toList] ∧
      ((default_config.arguments_limit = unlimited_arguments ∨
          ((["pos1".toList, "pos2".toList] : List Str).length : Int) ≤
            default_config.arguments_limit) → s.get_error = Error.NoError) :=
  construct_value_then_arguments [input_options[1]] [] default_config "prog".toList "-f".toList
    "a.txt".toList ["pos1".toList, "pos2".toList] ⟨0, by decide⟩ (Or.inr ⟨'f', rfl⟩) (by decide)
    (by decide) (by decide) (by decide) (by decide) (by decide)
    (is_int_small _ (by decide) (by decide))


/-- Witness of C2: `-laf=foo.txt` with `-l`, `-a` Simple and `-f` Compound. -/
theorem short_cluster_with_value_witness :
    ∃ s' : CLOrca,
      (CLOrca.init cluster_options [] default_config).load_argument
        ('-' :: (['l', 'a'] ++ 'f' :: SEPARATOR :: "foo.txt".toList)) = some s' ∧
      s'.options.map (fun o : Option => o.provided) = [true, true, true] ∧
      s'.options.map (fun o : Option => o.values) = [[], [], ["foo.txt".toList]] ∧
      s'.get_arguments = [] ∧ s'.waiting_value_option = none ∧
      s'.get_error = Error.NoError := by
  obtain ⟨s', h, _, _, _, _, ha, hw, he⟩ :=
    short_cluster_with_value (CLOrca.init cluster_options [] default_config) ['l', 'a'] 'f'
      "foo.txt".toList ⟨2, by decide⟩ rfl
      (fun c hc => by
        rcases List.mem_cons.mp hc with rfl | hc
        · exact ⟨by decide, ⟨0, by decide⟩, by decide, by decide⟩
        · rcases List.mem_cons.mp hc with rfl | hc
          · exact ⟨by decide, ⟨1, by decide⟩, by decide, by decide⟩
          · cases hc)
      (by decide) (by decide) (by decide) (by decide) (by decide)
  have hs' : (CLOrca.init cluster_options [] default_config).load_argument
      ('-' :: (['l', 'a'] ++ 'f' :: SEPARATOR :: "foo.txt".toList)) =
      some { CLOrca.init cluster_options [] default_config with
        options := [{ cluster_options[0] with provided := true },
          { cluster_options[1] with provided := true },
          { cluster_options[2] with provided := true, values := ["foo.txt".toList] }] } := by
    decide
  rw [hs'] at h
  injection h with h
  subst h
  exact ⟨_, hs', by decide, by decide, ha, hw, he⟩

/-- Witness of C3: the `-d` option of the first test case, at the indices 0, 2 and -1. -/
theorem Option_get_value_or_default_witness :
    parsed_default_option.get 0 = "default_option1".toList ∧
    parsed_default_option.get 2 = "default_option3".toList ∧
    parsed_default_option.get (-1) = [] :=
  ⟨((Option_get_value_or_default parsed_default_option 0 (is_int_small _ (by decide) (by decide))
      (by decide) (by decide)).2.1 rfl).trans (by decide),
   ((Option_get_value_or_default parsed_default_option 2 (is_int_small _ (by decide) (by decide))
      (by decide) (by decide)).2.1 rfl).trans (by decide),
   ((Option_get_value_or_default parsed_default_option (-1)
      (is_int_small _ (by decide) (by decide)) (by decide) (by decide)).2.1 rfl).trans
      (by decide)⟩

/-- Witness of C4: the test case `tests -f`. -/
theorem trailing_compound_option_missing_value_witness :
    ∃ s1 s : CLOrca,
      CLOrca.load_arguments
        { CLOrca.init error_options [] quiet_config with
          executable_name := filename "tests".toList } [] = some s1 ∧
      CLOrca.construct ("tests".toList :: ([] ++ ["-f".toList])) error_options [] quiet_config
        = some s ∧
      s.options.map (fun o : Option => o.values) = s1.options.map (fun o : Option => o.values) ∧
      s.waiting_value_option = some 0 ∧
      ((quiet_config.arguments_limit = unlimited_arguments ∨
          (s.get_arguments.length : Int) ≤ quiet_config.arguments_limit) →
        s.get_error = Error.MissingValue) :=
  trailing_compound_option_missing_value error_options [] quiet_config "tests".toList []
    "-f".toList "-f".toList ⟨0, by decide⟩ (by simp)
    (Or.inr ⟨[], 'f', rfl, by decide, rfl⟩) (by decide) (by decide) (by decide)
    (is_int_small _ (by decide) (by decide))

/-- Counterexample to C5 as stated: `--a=b` is a long alias that `find_option` resolves to a
Simple option, and the token `--a=b=v` leaves NotPossibleOption, not OptionCantHoldValue. -/
theorem simple_option_with_value_counterexample :
    (CLOrca.init separator_alias_options [] quiet_config).find_option "--a=b".toList
      = some ⟨0, by decide⟩ ∧
    separator_alias_options[0].type = OptionType.Simple ∧
    ((CLOrca.init separator_alias_options [] quiet_config).load_argument
      ("--a=b".toList ++ SEPARATOR :: "v".toList)).map CLOrca.get_error
      = some Error.NotPossibleOption ∧
    ((CLOrca.construct ["tests".toList, "--a=b=v".toList] separator_alias_options []
      quiet_config).map CLOrca.get_error) = some Error.NotPossibleOption := by
  decide

/-- Witness of C5: the test case `tests -h="test"`. -/
theorem simple_option_with_value_witness :
    ∃ s' : CLOrca,
      (CLOrca.init error_options [] quiet_config).load_argument
        ("-h".toList ++ SEPARATOR :: "\"test\"".toList) = some s' ∧
      s'.get_error = Error.OptionCantHoldValue ∧
      s'.options.map (fun o : Option => o.values) =
        (CLOrca.init error_options [] quiet_config).options.map (fun o : Option => o.values) ∧
      s'.get_arguments = (CLOrca.init error_options [] quiet_config).arguments :=
  simple_option_with_value (CLOrca.init error_options [] quiet_config) "-h".toList
    "\"test\"".toList ⟨1, by decide⟩ (wf_of_waiting_none _ rfl) (Or.inr ⟨'h', rfl⟩)
    (by decide) (by decide) (by decide)

/-- Witness of C6: the test case `tests --doesnt-exist`. -/
theorem load_option_unknown_name_witness :
    (CLOrca.init error_options [] quiet_config).load_option "--doesnt-exist".toList =
      some { CLOrca.init error_options [] quiet_config with error := Error.NotPossibleOption } ∧
    (CLOrca.construct ["tests".toList, "--doesnt-exist".toList] error_options [] quiet_config).map
      CLOrca.get_error = some Error.NotPossibleOption :=
  ⟨(load_option_unknown_name (CLOrca.init error_options [] quiet_config)
      "--doesnt-exist".toList (by decide)).1, by decide⟩

/-- Witness of C7: the test case on the limit 1, with one and with two positional
arguments. -/
theorem too_much_arguments_iff_witness :
    (∃ s, CLOrca.construct ["tests".toList, "-h".toList, "argument".toList, "argument2".toList]
        [input_options[0]] [] limit_config = some s ∧
      s.get_error = Error.TooMuchArguments) ∧
    (∃ s, CLOrca.construct ["tests".toList, "-h".toList, "argument".toList]
        [input_options[0]] [] limit_config = some s ∧
      s.get_error ≠ Error.TooMuchArguments) := by
  have hlim : is_int limit_config.arguments_limit := is_int_small _ (by decide) (by decide)
  have h2 : CLOrca.construct
      ["tests".toList, "-h".toList, "argument".toList, "argument2".toList]
      [input_options[0]] [] limit_config =
      some { CLOrca.init [{ input_options[0] with provided := true }] [] limit_config with
        arguments := ["argument".toList, "argument2".toList],
        error := Error.TooMuchArguments, executable_name := "tests".toList } := by
    decide
  have h1 : CLOrca.construct ["tests".toList, "-h".toList, "argument".toList]
      [input_options[0]] [] limit_config =
      some { CLOrca.init [{ input_options[0] with provided := true }] [] limit_config with
        arguments := ["argument".toList], executable_name := "tests".toList } := by
    decide
  exact ⟨⟨_, h2, ((too_much_arguments_iff _ _ _ _ _ h2 hlim).1 (by decide)).2 (by decide)⟩,
    ⟨_, h1, fun e =>
      absurd (((too_much_arguments_iff _ _ _ _ _ h1 hlim).1 (by decide)).1 e) (by decide)⟩⟩

/-- Witness of C8: the queries for `--non-existent` in the second error test case. -/
theorem query_unknown_name_witness :
    (after_failed_query.get "--non-existent".toList 0).1 = [] ∧
    (after_failed_query.check "--non-existent".toList).1 = false ∧
    (after_failed_query.get "--non-existent".toList 0).2.get_error = Error.OptionDoesntExist ∧
    (after_failed_query.check "--non-existent".toList).2.get_error = Error.OptionDoesntExist ∧
    (after_failed_query.get "--non-existent".toList 0).2.options = after_failed_query.options :=
  have h := query_unknown_name after_failed_query "--non-existent".toList 0 (by decide)
  ⟨h.1, h.2.1, h.2.2.1, h.2.2.2.1, h.2.2.2.2.2.2.1⟩

/-- Witness of C9: after the parse of `-h="test"` and the failed `get("--non-existent")`, the
queries `get("-h")` and `check("-h")` leave NoError. -/
theorem query_known_name_witness :
    ((CLOrca.construct ["tests".toList, "-h=\"test\"".toList] [error_options[1]] []
      quiet_config).map (fun s => (s.get "--non-existent".toList 0).2)) =
      some after_failed_query ∧
    after_failed_query.get_error = Error.OptionDoesntExist ∧
    (after_failed_query.check "-h".toList).1 = true ∧
    (after_failed_query.check "-h".toList).2.get_error = Error.NoError ∧
    (after_failed_query.get "-h".toList 0).2.get_error = Error.NoError :=
  have h := query_known_name after_failed_query "-h".toList 0 0 (by decide) (by decide)
    (fun j hj => absurd hj (Nat.not_lt_zero j))
  ⟨by decide, rfl, h.1, h.2.2.1, h.2.2.2.1⟩

/-- Witness of C10: two positional arguments and three defaults, at the indices 1, 2 and -1. -/
theorem get_argument_value_or_default_witness :
    (two_arguments.get_argument 1).1 = "argument2".toList ∧
    (two_arguments.get_argument 2).1 = "default_arg3".toList ∧
    (two_arguments.get_argument (-1)).1 = [] ∧
    (two_arguments.get_argument 2).2 = two_arguments :=
  ⟨((get_argument_value_or_default two_arguments 1 (is_int_small _ (by decide) (by decide))
      (by decide) (by decide)).1).trans (by decide),
   ((get_argument_value_or_default two_arguments 2 (is_int_small _ (by decide) (by decide))
      (by decide) (by decide)).1).trans (by decide),
   ((get_argument_value_or_default two_arguments (-1) (is_int_small _ (by decide) (by decide))
      (by decide) (by decide)).1).trans (by decide),
   (get_argument_value_or_default two_arguments 2 (is_int_small _ (by decide) (by decide))
      (by decide) (by decide)).2⟩

theorem load_option_found_spec (s s' : CLOrca) (t : Str) (ci : Fin s.options.length)
    (hf : s.find_option (get_option_info t).option = some ci)
    (h : s.load_option t = some s') :
    s'.arguments = s.arguments ∧ s'.config = s.config ∧
    s'.default_arguments = s.default_arguments ∧ s'.executable_name = s.executable_name ∧
    s'.options = s.options.set ci.val { s.options[ci.val] with
      provided := true,
      values := s.options[ci.val].values ++
        (if s.options[ci.val].is_compound = true ∧ (get_option_info t).has_separator = true ∧
            (get_option_info t).value ≠ [] then [(get_option_info t).value] else []) } ∧
    s'.waiting_value_option =
      (if s.options[ci.val].is_compound = true ∧ (get_option_info t).has_separator = false
        then some ci.val else none) ∧
    s'.error =
      (if (get_option_info t).has_separator = true ∧
          (s.options[ci.val].is_compound = false ∨ (get_option_info t).value = []) then
        (if s.options[ci.val].is_compound = true then Error.MissingValue
          else Error.OptionCantHoldValue)
      else if s.waiting_value_option = none then s.error else Error.MissingValue) := by
  unfold CLOrca.load_option at h
  simp only [hf] at h
  split at h
  · cases h
  · rename_i s2 hi
    obtain ⟨ho, ha, hw, hc, hda, hex, he⟩ := interrupt_waiting_cases _ _ hi
    simp only at ho ha hw hc hda hex he
    have hbase : s2.error = if s.waiting_value_option = none then s.error else Error.MissingValue := by
      rcases he with ⟨h1, h2⟩ | ⟨h1, h2⟩
      · rw [h2]; simp [h1]
      · rw [h2]; simp [h1]
    have hcomp : Option.is_compound { s.options[ci.val] with provided := true } =
        s.options[ci.val].is_compound := rfl
    rw [hcomp] at h
    by_cases hcq : s.options[ci.val].is_compound = true
    · by_cases hs : (get_option_info t).has_separator = true
      · by_cases hv : (get_option_info t).value = []
        · simp only [hcq, hs, hv, List.length_nil, ne_eq, not_true_eq_false, if_true, if_false] at h
          injection h with h
          subst h
          simp [ho, ha, hw, hc, hda, hex, hcq, hs, hv]
        · have hv' : (get_option_info t).value.length ≠ 0 := by
            simpa [List.length_eq_zero] using hv
          simp only [hcq, hs, hv', ne_eq, not_false_eq_true, if_true] at h
          injection h with h
          subst h
          simp [ho, ha, hw, hc, hda, hex, hcq, hs, hv, hbase, List.set_set]
      · have hs' : (get_option_info t).has_separator = false := by simpa using hs
        simp only [hcq, hs', if_true, Bool.false_eq_true, if_false] at h
        injection h with h
        subst h
        simp [ho, ha, hc, hda, hex, hcq, hs', hbase]
    · have hcq' : s.options[ci.val].is_compound = false := by simpa using hcq
      by_cases hs : (get_option_info t).has_separator = true
      · simp only [hcq', hs, Bool.false_eq_true, if_false, if_true] at h
        injection h with h
        subst h
        simp [ho, ha, hw, hc, hda, hex, hcq', hs]
      · have hs' : (get_option_info t).has_separator = false := by simpa using hs
        simp only [hcq', hs', Bool.false_eq_true, if_false] at h
        injection h with h
        subst h
        simp [ho, ha, hw, hc, hda, hex, hcq', hs', hbase]

theorem load_option_not_found_spec (s s' : CLOrca) (t : Str)
    (hf : s.find_option (get_option_info t).option = none)
    (h : s.load_option t = some s') : s' = { s with error := Error.NotPossibleOption } := by
  rw [load_option_not_found s t hf] at h
  injection h with h
  exact h.symm

theorem load_arguments_none_of_empty (ts : List Str) (s : CLOrca) (hwf : s.wf)
    (h : [] ∈ ts) : s.load_arguments ts = none := by
  induction ts generalizing s with
  | nil => cases h
  | cons t ts ih =>
    rw [CLOrca.load_arguments]
    by_cases ht : t = []
    · subst ht
      simp [CLOrca.load_argument]
    · obtain ⟨s1, h1⟩ := load_argument_total s t hwf ht
      rw [h1]
      have hmem : [] ∈ ts := by
        rcases List.mem_cons.mp h with e | e
        · exact absurd e.symm ht
        · exact e
      exact ih s1 ((load_argument_inv s s1 t h1).2.2.2.1 hwf) hmem

theorem construct_total (options : List Option) (default_arguments : List Str) (config : Config)
    (exe : Str) (ts : List Str) (hts : ∀ t ∈ ts, t ≠ []) :
    ∃ s, CLOrca.construct (exe :: ts) options default_arguments config = some s := by
  obtain ⟨s1, h1⟩ := load_arguments_total ts _ (wf_init options default_arguments config
    (filename exe)) hts
  obtain ⟨_, _, _, hwf1, _⟩ := load_arguments_inv ts _ s1 h1
  obtain ⟨s2, h2⟩ := check_waiting_total s1 (hwf1 (wf_init _ _ _ _))
  refine ⟨s2.check_limit, ?_⟩
  unfold CLOrca.construct CLOrca.load_options
  simp only
  rw [h1]
  simp only [h2, Option.map_some']

/-- C11: the construction does not always complete. For `prog ""` the call `curr_arg.at(0)`
throws on the empty token, so no object is built; in general the construction over
`exe :: ts` completes exactly when no token of `ts` is the empty string (the token `-` and
every other non-empty token are processed without an exception). -/
theorem construct_completes_iff :
    CLOrca.construct ["prog".toList, []] input_options [] default_config = none ∧
    ∀ (options : List Option) (default_arguments : List Str) (config : Config) (exe : Str)
      (ts : List Str),
      (∃ s, CLOrca.construct (exe :: ts) options default_arguments config = some s) ↔
        [] ∉ ts := by
  refine ⟨by decide, ?_⟩
  intro options default_arguments config exe ts
  constructor
  · rintro ⟨s, hs⟩ hmem
    have hnone := load_arguments_none_of_empty ts _
      (wf_init options default_arguments config (filename exe)) hmem
    unfold CLOrca.construct CLOrca.load_options at hs
    simp only at hs
    rw [hnone] at hs
    cases hs
  · intro hno
    exact construct_total options default_arguments config exe ts
      (fun t ht e => hno (e ▸ ht))

theorem load_argument_dash (s : CLOrca) : s.load_argument ['-'] = some s := by
  rw [load_argument_short s [] (by simp)]
  rfl

/-- Counterexample to C12 as stated: with no option waiting the token `-` is not appended
to the positional arguments, and with `-f` waiting it is not appended to the values of
`-f`, which goes on waiting. -/
theorem dash_token_counterexample :
    ((CLOrca.init error_options [] quiet_config).load_argument "-".toList).map
      CLOrca.get_arguments = some [] ∧
    (waiting_file.load_argument "-".toList).map
      (fun s => (s.options.map (fun o : Option => o.values), s.waiting_value_option)) =
      some ([[], []], some 0) := by
  decide

/-- C12, amended: in every parse state the token `-` is handled as an option token with an
empty short cluster: its processing completes and leaves the object as it was, so nothing
is appended to the values of any option or to the positional arguments, an option that
waits for a value goes on waiting, and the error is unchanged. -/
theorem dash_token_changes_nothing (s : CLOrca) :
    s.load_argument ['-'] = some s ∧
    (s.load_argument ['-']).map
      (fun s' => (s'.options, s'.get_arguments, s'.waiting_value_option, s'.get_error)) =
      some (s.options, s.arguments, s.waiting_value_option, s.error) := by
  refine ⟨load_argument_dash s, ?_⟩
  rw [load_argument_dash s]
  rfl

/-- C13: `find_option(name)` returns the option at position `i` exactly when `name` is one
of its aliases and an alias of no option before it, and it returns not-found exactly when
`name` is an alias of no option. When the alias lists of the options are pairwise disjoint,
`find_option(a)` returns the option `o` for every alias `a` of `o`, and no other option
has the alias `a`. -/
theorem find_option_first_match (s : CLOrca) (name : Str) :
    (∀ i : Fin s.options.length, s.find_option name = some i ↔
      (name ∈ s.options[i.val].aliases ∧
        ∀ j (hj : j < i.val), name ∉ s.options[j].aliases)) ∧
    (s.find_option name = none ↔ ∀ o ∈ s.options, name ∉ o.aliases) ∧
    ((∀ (i j : Nat) (hi : i < s.options.length) (hj : j < s.options.length), i ≠ j →
        ∀ a ∈ s.options[i].aliases, a ∉ s.options[j].aliases) →
      ∀ (i : Nat) (hi : i < s.options.length), ∀ a ∈ s.options[i].aliases,
        s.find_option a = some ⟨i, hi⟩ ∧
        ∀ (j : Nat) (hj : j < s.options.length), j ≠ i → s.options[j].has_alias a = false) := by
  refine ⟨?_, ?_, ?_⟩
  · intro i
    constructor
    · intro h
      have hidx : s.options.findIdx (fun o => o.has_alias name) = i.val := by
        have := find_option_val s name
        rw [h] at this
        simp only [Option.map_some'] at this
        split at this
        · injection this with this
          exact this.symm
        · cases this
      refine ⟨(has_alias_iff _ _).mp (find_option_has_alias s name i h), fun j hj => ?_⟩
      have := @List.not_of_lt_findIdx _ (fun (o : Option) => o.has_alias name) s.options j
        (by rw [hidx]; exact hj)
      rw [← has_alias_iff]
      simpa using this
    · rintro ⟨h1, h2⟩
      exact find_option_first s name i.val i.isLt h1 h2
  · rw [find_option_eq_none]
    constructor
    · intro h o ho hmem
      have := h o ho
      rw [(has_alias_iff o name).mpr hmem] at this
      cases this
    · intro h o ho
      have := h o ho
      rw [← has_alias_iff] at this
      simpa using this
  · intro hdis i hi a ha
    refine ⟨find_option_first s a i hi ha (fun j hj hmem => ?_), fun j hj hne => ?_⟩
    · exact hdis i j hi (Nat.lt_trans hj hi) (by omega) a ha hmem
    · have := hdis i j hi hj (fun e => hne e.symm) a ha
      rw [← has_alias_iff] at this
      simpa using this

/-- Witness of C13: the options of the first test case have pairwise disjoint aliases, and
`--file` resolves to the second of them. -/
theorem find_option_first_match_witness :
    (CLOrca.init input_options [] default_config).find_option "--file".toList
      = some ⟨1, by decide⟩ ∧
    ∀ (j : Nat) (hj : j < (CLOrca.init input_options [] default_config).options.length),
      j ≠ 1 → (CLOrca.init input_options [] default_config).options[j].has_alias
        "--file".toList = false :=
  (find_option_first_match (CLOrca.init input_options [] default_config) "--file".toList).2.2
    (by
      intro i j hi hj hne
      have hi5 : i < 5 := hi
      have hj5 : j < 5 := hj
      interval_cases i <;> interval_cases j <;>
        first
        | exact absurd rfl hne
        | simp [CLOrca.init, input_options])
    1 (by decide) "--file".toList (by decide)

/-- Counterexample to C18 as stated: `--non-existent` is an alias of no option, and after
`find_option("--non-existent")` the error is NoError as before, not OptionDoesntExist. -/
theorem find_option_call_counterexample :
    (∀ o ∈ (CLOrca.init error_options [] quiet_config).options,
      "--non-existent".toList ∉ o.aliases) ∧
    ((CLOrca.init error_options [] quiet_config).find_option_call
      "--non-existent".toList).2.get_error = Error.NoError := by
  decide

/-- C18, amended: for a name that is an alias of no option, `find_option(name)` returns
not-found and leaves the object, the recorded error included, as it was; the error
OptionDoesntExist is recorded by `check(name)` and `get(name)`, which assign it after
their lookup has failed. -/
theorem find_option_call_keeps_error (s : CLOrca) (name : Str) (i : Int)
    (h : ∀ o ∈ s.options, name ∉ o.aliases) :
    (s.find_option_call name).1 = none ∧ (s.find_option_call name).2 = s ∧
    (s.find_option_call name).2.get_error = s.error ∧
    (s.check name).2.get_error = Error.OptionDoesntExist ∧
    (s.get name i).2.get_error = Error.OptionDoesntExist := by
  have hf : CLOrca.find_option { s with error := Error.NoError } name = none :=
    find_option_none_of_not_alias _ name h
  refine ⟨find_option_none_of_not_alias s name h, rfl, rfl, ?_, ?_⟩
  · simp [CLOrca.check, hf, CLOrca.get_error]
  · simp [CLOrca.get, hf, CLOrca.get_error]

/-- Witness of C18: the lookup of `--non-existent` after the parse of `-h="test"`, which has
left OptionCantHoldValue. -/
theorem find_option_call_keeps_error_witness :
    ({ after_failed_query with error := Error.OptionCantHoldValue }.find_option_call
      "--non-existent".toList).2.get_error = Error.OptionCantHoldValue ∧
    ({ after_failed_query with error := Error.OptionCantHoldValue }.check
      "--non-existent".toList).2.get_error = Error.OptionDoesntExist :=
  have h := find_option_call_keeps_error
    { after_failed_query with error := Error.OptionCantHoldValue } "--non-existent".toList 0
    (by decide)
  ⟨h.2.2.1, h.2.2.2.1⟩

theorem get_aliases_loop_nonempty (sep : Str) (l : List Str) (result : Str)
    (h : result ≠ []) :
    Option.get_aliases_loop sep l result = result ++ (l.map (fun a => sep ++ a)).flatten := by
  induction l generalizing result with
  | nil => simp [Option.get_aliases_loop]
  | cons a l ih =>
    have hlen : result.length ≠ 0 := by simpa [List.length_eq_zero] using h
    rw [Option.get_aliases_loop]
    simp only [hlen, ne_eq, not_false_eq_true, if_true]
    rw [ih _ (by simp [h])]
    simp

theorem intercalate_cons_eq (sep a : Str) (l : List Str) :
    sep.intercalate (a :: l) = a ++ (l.map (fun b => sep ++ b)).flatten := by
  induction l generalizing a with
  | nil => simp [List.intercalate]
  | cons b l ih =>
    have := ih b
    simp only [List.intercalate] at this ⊢
    rw [List.intersperse_cons_cons, List.flatten_cons, List.flatten_cons, this]
    simp

theorem get_aliases_loop_nil (sep : Str) (l : List Str) :
    Option.get_aliases_loop sep l [] = sep.intercalate (l.dropWhile (fun a => a.isEmpty)) := by
  induction l with
  | nil => simp [Option.get_aliases_loop, List.intercalate]
  | cons a l ih =>
    rw [Option.get_aliases_loop]
    simp only [List.length_nil, ne_eq, not_true_eq_false, if_false, List.nil_append]
    cases a with
    | nil => simpa using ih
    | cons c a =>
      rw [get_aliases_loop_nonempty sep l (c :: a) (by simp)]
      simp [List.dropWhile, intercalate_cons_eq]

/-- C19: for the aliases `""`, `"-a"` and the separator `", "`, `get_aliases` returns `-a`,
while the aliases joined with one separator between them are `, -a`. The loop inserts the
separator only when the string built so far is not empty, so in general it returns the
join of the aliases that remain once the leading empty aliases are dropped. -/
theorem get_aliases_drops_leading_empty :
    empty_alias_option.get_aliases ", ".toList = "-a".toList ∧
    (", ".toList).intercalate empty_alias_option.aliases = ", -a".toList ∧
    ∀ (o : Option) (sep : Str),
      o.get_aliases sep = sep.intercalate (o.aliases.dropWhile (fun a => a.isEmpty)) := by
  refine ⟨by decide, by decide, fun o sep => ?_⟩
  exact get_aliases_loop_nil sep o.aliases

theorem grows_refl (o : Option) : o.grows o :=
  ⟨rfl, rfl, rfl, rfl, rfl, id, List.prefix_refl _⟩

theorem grows_trans (a b c : Option) (h1 : a.grows b) (h2 : b.grows c) : a.grows c := by
  obtain ⟨a1, a2, a3, a4, a5, a6, a7⟩ := h1
  obtain ⟨b1, b2, b3, b4, b5, b6, b7⟩ := h2
  exact ⟨b1.trans a1, b2.trans a2, b3.trans a3, b4.trans a4, b5.trans a5,
    fun h => b6 (a6 h), a7.trans b7⟩

theorem options_grow_of_eq (s s' : CLOrca) (h : s'.options = s.options) : s.options_grow s' := by
  refine ⟨by rw [h], fun k o o' ho ho' => ?_⟩
  rw [h, ho] at ho'
  injection ho' with ho'
  subst ho'
  exact grows_refl o

theorem options_grow_trans (a b c : CLOrca) (h1 : a.options_grow b) (h2 : b.options_grow c) :
    a.options_grow c := by
  refine ⟨h2.1.trans h1.1, fun k o o'' ho ho'' => ?_⟩
  have hk : k < a.options.length := by
    rcases List.getElem?_eq_some_iff.mp ho with ⟨hk, _⟩
    exact hk
  have hkb : k < b.options.length := by rw [h1.1]; exact hk
  exact grows_trans o b.options[k] o'' (h1.2 k o _ ho (List.getElem?_eq_getElem hkb))
    (h2.2 k _ o'' (List.getElem?_eq_getElem hkb) ho'')

theorem options_grow_set (s s' : CLOrca) (k : Nat) (o o' : Option)
    (hk : s.options[k]? = some o) (hs : s'.options = s.options.set k o') (hg : o.grows o') :
    s.options_grow s' := by
  refine ⟨by rw [hs]; simp, fun j a a' ha ha' => ?_⟩
  rw [hs, List.getElem?_set] at ha'
  by_cases hjk : k = j
  · subst hjk
    rw [hk] at ha
    injection ha with ha
    subst ha
    have hlt : k < s.options.length := by
      rcases List.getElem?_eq_some_iff.mp hk with ⟨hlt, _⟩
      exact hlt
    simp only [hlt, if_true] at ha'
    injection ha' with ha'
    subst ha'
    exact hg
  · simp only [hjk, if_false] at ha'
    rw [ha] at ha'
    injection ha' with ha'
    subst ha'
    exact grows_refl a

theorem load_option_grows (s s' : CLOrca) (t : Str) (h : s.load_option t = some s') :
    s.options_grow s' := by
  cases hf : s.find_option (get_option_info t).option with
  | none =>
    rw [load_option_not_found_spec s s' t hf h]
    exact options_grow_of_eq _ _ rfl
  | some ci =>
    obtain ⟨_, _, _, _, ho, _, _⟩ := load_option_found_spec s s' t ci hf h
    refine options_grow_set s s' ci.val _ _ (List.getElem?_eq_getElem ci.isLt) ho ?_
    exact ⟨rfl, rfl, rfl, rfl, rfl, fun _ => rfl, List.prefix_append _ _⟩

theorem short_walk_grows (cs : List Char) (s s' : CLOrca) (h : s.short_walk cs = some s') :
    s.options_grow s' := by
  induction cs generalizing s with
  | nil =>
    simp only [CLOrca.short_walk] at h
    injection h with h
    subst h
    exact options_grow_of_eq _ _ rfl
  | cons c cs ih =>
    rw [CLOrca.short_walk] at h
    split at h
    · exact load_option_grows s s' _ h
    · split at h
      · cases h
      · rename_i s1 h1
        exact options_grow_trans s s1 s' (load_option_grows s s1 _ h1) (ih s1 h)

theorem load_argument_cases (s s' : CLOrca) (t : Str) (h : s.load_argument t = some s') :
    (t.head? = some '-' ∧
      (s.load_option t = some s' ∨ s.short_walk (t.drop 1) = some s')) ∨
    (t ≠ [] ∧ t.head? ≠ some '-' ∧ s.waiting_value_option = none ∧
      s' = { s with arguments := s.arguments ++ [t] }) ∨
    (t ≠ [] ∧ t.head? ≠ some '-' ∧ ∃ (w : Nat) (wo : Option),
      s.waiting_value_option = some w ∧ s.options[w]? = some wo ∧
      s' = { s with
        options := s.options.set w { wo with values := wo.values ++ [t] },
        waiting_value_option := none }) := by
  cases t with
  | nil => simp [CLOrca.load_argument] at h
  | cons c t =>
    unfold CLOrca.load_argument at h
    simp only [List.getElem?_cons_zero] at h
    split at h
    · rename_i hc
      subst hc
      left
      refine ⟨rfl, ?_⟩
      split at h
      · exact Or.inl h
      · rw [load_simple_options_eq] at h
        exact Or.inr h
    · rename_i hc
      right
      split at h
      · rename_i w hw
        split at h
        · cases h
        · rename_i wo hwo
          injection h with h
          exact Or.inr ⟨by simp, by simpa using hc, w, wo, hw, hwo, h.symm⟩
      · rename_i hw
        injection h with h
        exact Or.inl ⟨by simp, by simpa using hc, hw, h.symm⟩

theorem load_argument_grows (s s' : CLOrca) (t : Str) (h : s.load_argument t = some s') :
    s.options_grow s' := by
  rcases load_argument_cases s s' t h with ⟨_, h1 | h1⟩ | ⟨_, _, _, h1⟩ |
    ⟨_, _, w, wo, _, hwo, h1⟩
  · exact load_option_grows s s' t h1
  · exact short_walk_grows _ s s' h1
  · rw [h1]
    exact options_grow_of_eq _ _ rfl
  · refine options_grow_set s s' w wo _ hwo (by rw [h1]) ?_
    exact ⟨rfl, rfl, rfl, rfl, rfl, id, List.prefix_append _ _⟩

theorem load_arguments_grows (ts : List Str) (s s' : CLOrca)
    (h : s.load_arguments ts = some s') : s.options_grow s' := by
  induction ts generalizing s with
  | nil =>
    simp only [CLOrca.load_arguments] at h
    injection h with h
    subst h
    exact options_grow_of_eq _ _ rfl
  | cons t ts ih =>
    rw [CLOrca.load_arguments] at h
    split at h
    · cases h
    · rename_i s1 h1
      exact options_grow_trans s s1 s' (load_argument_grows s s1 t h1) (ih s1 h)

/-- C20: a raw token whose processing completes leaves the option list at its length, each
option with its aliases, kind, defaults, name and description, with a provided flag that is
still true if it was, and with values of which the former values are a prefix. The same
holds from the options given to the constructor to those after a construction that
completes, and `check`, `get` and `get_argument` leave the options as they are. -/
theorem options_only_grow :
    (∀ (s s' : CLOrca) (t : Str), s.load_argument t = some s' → s.options_grow s') ∧
    (∀ (argv : List Str) (options : List Option) (default_arguments : List Str)
      (config : Config) (s : CLOrca),
      CLOrca.construct argv options default_arguments config = some s →
        (CLOrca.init options default_arguments config).options_grow s) ∧
    (∀ (s : CLOrca) (name : Str) (i n : Int),
      (s.check name).2.options = s.options ∧ (s.get name i).2.options = s.options ∧
      (s.get_argument n).2.options = s.options) := by
  refine ⟨load_argument_grows, ?_, ?_⟩
  · intro argv options default_arguments config s h
    obtain ⟨s0, s1, s2, ho0, _, _, _, _, h1, h2, h3⟩ :=
      construct_cases argv options default_arguments config s h
    obtain ⟨_, _, ho2, _, _⟩ := check_waiting_inv _ _ h2
    have hg := load_arguments_grows _ s0 s1 h1
    have h01 : (CLOrca.init options default_arguments config).options_grow s0 :=
      options_grow_of_eq _ _ ho0
    have h1s : s1.options_grow s := by
      apply options_grow_of_eq
      rw [h3, check_limit_frame]
      exact ho2
    exact options_grow_trans _ _ _ (options_grow_trans _ _ _ h01 hg) h1s
  · intro s name i n
    refine ⟨?_, ?_, ?_⟩
    · unfold CLOrca.check
      simp only
      split <;> rfl
    · unfold CLOrca.get
      simp only
      split <;> rfl
    · unfold CLOrca.get_argument
      split
      · rfl
      · split <;> rfl

/-- Witness of C20: the test case `tests -f`, and the token `value` processed after it. -/
theorem options_only_grow_witness :
    (CLOrca.init error_options [] quiet_config).options_grow
      { waiting_file with error := Error.MissingValue } ∧
    waiting_file.options_grow
      { waiting_file with
        options := [ { error_options[0] with provided := true, values := ["value".toList] },
          error_options[1] ],
        waiting_value_option := none } :=
  ⟨options_only_grow.2.1 ["tests".toList, "-f".toList] error_options [] quiet_config
      { waiting_file with error := Error.MissingValue } (by decide),
   options_only_grow.1 waiting_file _ "value".toList (by decide)⟩

theorem is_compound_of_grows (o o' : Option) (h : o.grows o') :
    o'.is_compound = o.is_compound := by
  unfold Option.is_compound
  rw [h.2.1]

theorem load_option_simple_kept (s s' : CLOrca) (t : Str) (h : s.load_option t = some s')
    (hwc : s.waits_compound) : s'.waits_compound ∧ s.simple_values_kept s' := by
  cases hf : s.find_option (get_option_info t).option with
  | none =>
    rw [load_option_not_found_spec s s' t hf h]
    refine ⟨hwc, fun k o o' ho ho' _ => ?_⟩
    simp only at ho'
    rw [ho] at ho'
    injection ho' with ho'
    rw [ho']
  | some ci =>
    obtain ⟨_, _, _, _, ho, hw, _⟩ := load_option_found_spec s s' t ci hf h
    constructor
    · intro w hw'
      rw [hw] at hw'
      split at hw'
      · rename_i hc
        injection hw' with hw'
        subst hw'
        refine ⟨_, by rw [ho]; exact List.getElem?_set_self ci.isLt, ?_⟩
        exact hc.1
      · cases hw'
    · intro k o o' hko hko' hsimple
      rw [ho, List.getElem?_set] at hko'
      by_cases hk : ci.val = k
      · subst hk
        simp only [ci.isLt, if_true] at hko'
        injection hko' with hko'
        rw [List.getElem?_eq_getElem ci.isLt] at hko
        injection hko with hko
        subst hko
        subst hko'
        simp [hsimple]
      · simp only [hk, if_false] at hko'
        rw [hko] at hko'
        injection hko' with hko'
        rw [hko']

theorem simple_values_kept_trans (a b c : CLOrca) (hg : a.options_grow b)
    (h1 : a.simple_values_kept b) (h2 : b.simple_values_kept c) : a.simple_values_kept c := by
  intro k o o'' ho ho'' hsimple
  have hk : k < a.options.length := by
    rcases List.getElem?_eq_some_iff.mp ho with ⟨hk, _⟩
    exact hk
  have hkb : k < b.options.length := by rw [hg.1]; exact hk
  have hb := List.getElem?_eq_getElem hkb
  have hcomp : b.options[k].is_compound = false := by
    rw [is_compound_of_grows o _ (hg.2 k o _ ho hb)]
    exact hsimple
  rw [h2 k _ o'' hb ho'' hcomp, h1 k o _ ho hb hsimple]

theorem simple_values_kept_of_eq (s s' : CLOrca) (h : s'.options = s.options) :
    s.simple_values_kept s' := by
  intro k o o' ho ho' _
  rw [h, ho] at ho'
  injection ho' with ho'
  rw [ho']

theorem short_walk_simple_kept (cs : List Char) (s s' : CLOrca)
    (h : s.short_walk cs = some s') (hwc : s.waits_compound) :
    s'.waits_compound ∧ s.simple_values_kept s' := by
  induction cs generalizing s with
  | nil =>
    simp only [CLOrca.short_walk] at h
    injection h with h
    subst h
    exact ⟨hwc, simple_values_kept_of_eq _ _ rfl⟩
  | cons c cs ih =>
    rw [CLOrca.short_walk] at h
    split at h
    · exact load_option_simple_kept s s' _ h hwc
    · split at h
      · cases h
      · rename_i s1 h1
        obtain ⟨a1, a2⟩ := load_option_simple_kept s s1 _ h1 hwc
        obtain ⟨b1, b2⟩ := ih s1 h a1
        exact ⟨b1, simple_values_kept_trans s s1 s' (load_option_grows s s1 _ h1) a2 b2⟩

theorem load_argument_simple_kept (s s' : CLOrca) (t : Str) (h : s.load_argument t = some s')
    (hwc : s.waits_compound) : s'.waits_compound ∧ s.simple_values_kept s' := by
  rcases load_argument_cases s s' t h with ⟨_, h1 | h1⟩ | ⟨_, _, _, h1⟩ |
    ⟨_, _, w, wo, hw, hwo, h1⟩
  · exact load_option_simple_kept s s' t h1 hwc
  · exact short_walk_simple_kept _ s s' h1 hwc
  · rw [h1]
    exact ⟨hwc, simple_values_kept_of_eq _ _ rfl⟩
  · obtain ⟨o, ho, hc⟩ := hwc w hw
    rw [hwo] at ho
    injection ho with ho
    subst ho
    rw [h1]
    refine ⟨fun w' hw' => (by cases hw'), fun k o o' hko hko' hsimple => ?_⟩
    simp only [List.getElem?_set] at hko'
    by_cases hk : w = k
    · subst hk
      rw [hwo] at hko
      injection hko with hko
      subst hko
      rw [hc] at hsimple
      cases hsimple
    · simp only [hk, if_false] at hko'
      rw [hko] at hko'
      injection hko' with hko'
      rw [hko']

theorem load_arguments_simple_kept (ts : List Str) (s s' : CLOrca)
    (h : s.load_arguments ts = some s') (hwc : s.waits_compound) :
    s'.waits_compound ∧ s.simple_values_kept s' := by
  induction ts generalizing s with
  | nil =>
    simp only [CLOrca.load_arguments] at h
    injection h with h
    subst h
    exact ⟨hwc, simple_values_kept_of_eq _ _ rfl⟩
  | cons t ts ih =>
    rw [CLOrca.load_arguments] at h
    split at h
    · cases h
    · rename_i s1 h1
      obtain ⟨a1, a2⟩ := load_argument_simple_kept s s1 t h1 hwc
      obtain ⟨b1, b2⟩ := ih s1 h a1
      exact ⟨b1, simple_values_kept_trans s s1 s' (load_argument_grows s s1 t h1) a2 b2⟩

/-- C15: when every option given to the constructor has an empty values list and the
construction completes, every Simple option has an empty values list afterwards: an inline
value is stored on Compound options only, and a following token is stored on the waiting
option, which is always a Compound option. -/
theorem simple_options_hold_no_value (argv : List Str) (options : List Option)
    (default_arguments : List Str) (config : Config) (s : CLOrca)
    (h : CLOrca.construct argv options default_arguments config = some s)
    (hempty : ∀ o ∈ options, o.values = []) :
    ∀ o ∈ s.options, o.type = OptionType.Simple → o.values = [] := by
  obtain ⟨s0, s1, s2, ho0, _, _, hw0, _, h1, h2, h3⟩ :=
    construct_cases argv options default_arguments config s h
  obtain ⟨_, _, ho2, _, _⟩ := check_waiting_inv _ _ h2
  have hwc0 : s0.waits_compound := by
    intro w hw
    rw [hw0] at hw
    cases hw
  obtain ⟨_, hkept⟩ := load_arguments_simple_kept _ s0 s1 h1 hwc0
  have hg := load_arguments_grows _ s0 s1 h1
  have hso : s.options = s1.options := by
    rw [h3, check_limit_frame]
    exact ho2
  intro o ho hsimple
  rw [hso] at ho
  obtain ⟨k, hk, hget⟩ := List.getElem_of_mem ho
  have hk0 : k < s0.options.length := by rw [← hg.1]; exact hk
  have hgrow := hg.2 k s0.options[k] o (List.getElem?_eq_getElem hk0)
    (by rw [List.getElem?_eq_getElem hk, hget])
  have hc0 : s0.options[k].is_compound = false := by
    rw [← is_compound_of_grows _ _ hgrow]
    exact (is_compound_of_type o).2 hsimple
  rw [hkept k s0.options[k] o (List.getElem?_eq_getElem hk0)
    (by rw [List.getElem?_eq_getElem hk, hget]) hc0]
  apply hempty
  rw [← ho0]
  exact List.getElem_mem hk0

/-- Witness of C15: after `tests -h x -h=y` the Simple option `-h` holds no value. -/
theorem simple_options_hold_no_value_witness :
    CLOrca.construct ["tests".toList, "-h".toList, "x".toList, "-h=y".toList]
      [error_options[1]] [] quiet_config =
      some { CLOrca.init [ { error_options[1] with provided := true } ] [] quiet_config with
        arguments := ["x".toList], error := Error.OptionCantHoldValue,
        executable_name := "tests".toList } ∧
    ∀ o ∈ [ { error_options[1] with provided := true } ],
      o.type = OptionType.Simple → o.values = [] :=
  ⟨by decide,
   simple_options_hold_no_value
    ["tests".toList, "-h".toList, "x".toList, "-h=y".toList] [error_options[1]] []
    quiet_config
    { CLOrca.init [ { error_options[1] with provided := true } ] [] quiet_config with
      arguments := ["x".toList], error := Error.OptionCantHoldValue,
      executable_name := "tests".toList }
    (by decide) (by decide)⟩

/-- C16: when the option `p` at position `w` (which has an alias) waits for a value and the
sub-token resolves to an option `q` at another position, `load_option` returns; the error
is MissingValue, recorded for `p` or for a Compound `q` whose separator is followed by
nothing, unless `q` is Simple and the sub-token has a separator, when it is
OptionCantHoldValue; the values of `p` are unchanged, `q` is provided, and the waiting
option afterwards is `q` if `q` is Compound and the sub-token has no separator, and none
otherwise. -/
theorem waiting_option_interrupted (s : CLOrca) (t : Str) (w : Nat) (p : Option)
    (q : Fin s.options.length)
    (hw : s.waiting_value_option = some w) (hp : s.options[w]? = some p)
    (hal : p.aliases ≠ [])
    (hq : s.find_option (get_option_info t).option = some q) (hne : q.val ≠ w) :
    ∃ s' : CLOrca, s.load_option t = some s' ∧
      s'.get_error =
        (if s.options[q.val].type = OptionType.Simple ∧ (get_option_info t).has_separator = true
          then Error.OptionCantHoldValue else Error.MissingValue) ∧
      (∃ p' : Option, s'.options[w]? = some p' ∧ p'.values = p.values) ∧
      (∃ q' : Option, s'.options[q.val]? = some q' ∧ q'.provided = true) ∧
      s'.waiting_value_option =
        (if s.options[q.val].type = OptionType.Compound ∧
            (get_option_info t).has_separator = false then some q.val else none) := by
  have hwf : s.wf := by
    intro w' hw'
    rw [hw] at hw'
    injection hw' with hw'
    subst hw'
    exact ⟨p, hp, hal⟩
  obtain ⟨s', h⟩ := load_option_total s t hwf
  obtain ⟨_, _, _, _, ho, hwait, herr⟩ := load_option_found_spec s s' t q hq h
  have hwne : s.waiting_value_option ≠ none := by rw [hw]; simp
  refine ⟨s', h, ?_, ?_, ?_, ?_⟩
  · unfold CLOrca.get_error
    rw [herr]
    cases htype : s.options[q.val].type with
    | Simple =>
      have hc := (is_compound_of_type _).2 htype
      by_cases hs : (get_option_info t).has_separator = true
      · simp [hc, hs]
      · simp [hc, hs, hwne]
    | Compound =>
      have hc := (is_compound_of_type _).1 htype
      by_cases hs : (get_option_info t).has_separator = true
      · by_cases hv : (get_option_info t).value = []
        · simp [hc, hs, hv]
        · simp [hc, hs, hv, hwne]
      · simp [hc, hs, hwne]
  · refine ⟨p, ?_, rfl⟩
    rw [ho, List.getElem?_set_ne hne]
    exact hp
  · refine ⟨_, by rw [ho]; exact List.getElem?_set_self q.isLt, rfl⟩
  · rw [hwait]
    cases htype : s.options[q.val].type with
    | Simple =>
      have hc := (is_compound_of_type _).2 htype
      simp [hc]
    | Compound =>
      have hc := (is_compound_of_type _).1 htype
      simp [hc]

/-- Witness of C16: `-f` waits and the sub-tokens `-h` and `-h=x` arrive. -/
theorem waiting_option_interrupted_witness :
    (∃ s' : CLOrca, waiting_file.load_option "-h".toList = some s' ∧
      s'.get_error = Error.MissingValue ∧ s'.waiting_value_option = none) ∧
    (∃ s' : CLOrca, waiting_file.load_option "-h=x".toList = some s' ∧
      s'.get_error = Error.OptionCantHoldValue ∧ s'.waiting_value_option = none) := by
  obtain ⟨s1, h1, e1, _, _, w1⟩ := waiting_option_interrupted waiting_file "-h".toList 0
    waiting_file.options[0] ⟨1, by decide⟩ rfl rfl (by decide) (by decide) (by decide)
  obtain ⟨s2, h2, e2, _, _, w2⟩ := waiting_option_interrupted waiting_file "-h=x".toList 0
    waiting_file.options[0] ⟨1, by decide⟩ rfl rfl (by decide) (by decide) (by decide)
  exact ⟨⟨s1, h1, e1.trans (by decide), w1.trans (by decide)⟩,
    ⟨s2, h2, e2.trans (by decide), w2.trans (by decide)⟩⟩

theorem recorded_after_nil (e : Error) : recorded_after e [] = e := rfl

theorem recorded_after_append (e : Error) (l1 l2 : List Error) :
    recorded_after e (l1 ++ l2) = recorded_after (recorded_after e l1) l2 := by
  unfold recorded_after
  cases l2 with
  | nil => simp
  | cons a l2 =>
    rw [List.getLast?_append_of_ne_nil _ (by simp)]
    simp [List.getLast?_cons]

theorem load_option_recorded (s s' : CLOrca) (t : Str) (h : s.load_option t = some s') :
    s'.error = recorded_after s.error (s.load_option_raised t) ∧
    Error.NoError ∉ s.load_option_raised t := by
  cases hf : s.find_option (get_option_info t).option with
  | none =>
    rw [load_option_not_found_spec s s' t hf h]
    simp [CLOrca.load_option_raised, hf, recorded_after]
  | some ci =>
    obtain ⟨_, _, _, _, _, _, herr⟩ := load_option_found_spec s s' t ci hf h
    rw [herr]
    simp only [CLOrca.load_option_raised, hf]
    cases hw : s.waiting_value_option <;>
      cases hc : s.options[ci.val].is_compound <;>
      cases hs : (get_option_info t).has_separator <;>
      by_cases hv : (get_option_info t).value = [] <;>
      simp [recorded_after, hv]

theorem short_walk_recorded (cs : List Char) (s s' : CLOrca) (h : s.short_walk cs = some s') :
    s'.error = recorded_after s.error (s.short_walk_raised cs) ∧
    Error.NoError ∉ s.short_walk_raised cs := by
  induction cs generalizing s with
  | nil =>
    simp only [CLOrca.short_walk] at h
    injection h with h
    subst h
    simp [CLOrca.short_walk_raised, recorded_after]
  | cons c cs ih =>
    rw [CLOrca.short_walk] at h
    rw [CLOrca.short_walk_raised]
    split at h
    · rename_i hhead
      simp only [hhead, if_true]
      exact load_option_recorded s s' _ h
    · rename_i hhead
      simp only [hhead, if_false]
      split at h
      · cases h
      · rename_i s1 h1
        obtain ⟨a1, a2⟩ := load_option_recorded s s1 _ h1
        obtain ⟨b1, b2⟩ := ih s1 h
        refine ⟨?_, ?_⟩
        · rw [recorded_after_append, ← a1, b1]
        · intro hmem
          rcases List.mem_append.mp hmem with e | e
          · exact a2 e
          · exact b2 e

theorem load_argument_recorded (s s' : CLOrca) (t : Str) (h : s.load_argument t = some s') :
    s'.error = recorded_after s.error (s.load_argument_raised t) ∧
    Error.NoError ∉ s.load_argument_raised t := by
  cases t with
  | nil => simp [CLOrca.load_argument] at h
  | cons c t =>
    unfold CLOrca.load_argument at h
    unfold CLOrca.load_argument_raised
    simp only [List.getElem?_cons_zero] at h
    simp only [List.head?_cons, Option.some.injEq]
    by_cases hc : c = '-'
    · simp only [hc, if_true] at h ⊢
      split at h
      · rename_i hlong
        simp only [hlong, and_self, if_true]
        exact load_option_recorded s s' _ h
      · rename_i hlong
        simp only [hlong, if_false]
        rw [load_simple_options_eq] at h
        exact short_walk_recorded _ s s' h
    · simp only [hc, if_false] at h ⊢
      refine ⟨?_, by simp⟩
      split at h
      · split at h
        · cases h
        · injection h with h
          subst h
          rfl
      · injection h with h
        subst h
        rfl

theorem load_arguments_recorded (ts : List Str) (s s' : CLOrca)
    (h : s.load_arguments ts = some s') :
    s'.error = recorded_after s.error (s.load_arguments_raised ts) ∧
    Error.NoError ∉ s.load_arguments_raised ts := by
  induction ts generalizing s with
  | nil =>
    simp only [CLOrca.load_arguments] at h
    injection h with h
    subst h
    simp [CLOrca.load_arguments_raised, recorded_after]
  | cons t ts ih =>
    rw [CLOrca.load_arguments] at h
    rw [CLOrca.load_arguments_raised]
    split at h
    · cases h
    · rename_i s1 h1
      obtain ⟨a1, a2⟩ := load_argument_recorded s s1 t h1
      obtain ⟨b1, b2⟩ := ih s1 h
      refine ⟨?_, ?_⟩
      · rw [recorded_after_append, ← a1, b1]
      · intro hmem
        rcases List.mem_append.mp hmem with e | e
        · exact a2 e
        · exact b2 e

theorem final_checks_recorded (s1 s2 : CLOrca) (h : s1.check_waiting = some s2) :
    s2.check_limit.error = recorded_after s1.error s1.final_checks_raised ∧
    Error.NoError ∉ s1.final_checks_raised := by
  unfold CLOrca.final_checks_raised
  simp only [h]
  have hw : s2.error = recorded_after s1.error s1.check_waiting_raised ∧
      Error.NoError ∉ s1.check_waiting_raised := by
    unfold CLOrca.check_waiting_raised
    obtain ⟨_, _, _, _, he⟩ := check_waiting_inv s1 s2 h
    rcases he with ⟨h1, h2⟩ | ⟨h1, h2⟩
    · rw [h2]; simp [h1, recorded_after]
    · rw [h2]
      cases hwv : s1.waiting_value_option with
      | none => exact absurd hwv h1
      | some w => simp [recorded_after]
  have hl : s2.check_limit.error = recorded_after s2.error s2.check_limit_raised ∧
      Error.NoError ∉ s2.check_limit_raised := by
    unfold CLOrca.check_limit CLOrca.check_limit_raised
    split <;> simp [recorded_after]
  refine ⟨?_, ?_⟩
  · rw [recorded_after_append, ← hw.1, hl.1]
  · intro hmem
    rcases List.mem_append.mp hmem with e | e
    · exact hw.2 e
    · exact hl.2 e

theorem recorded_after_eq_no_error (l : List Error) (h : Error.NoError ∉ l) :
    recorded_after Error.NoError l = Error.NoError ↔ l = [] := by
  constructor
  · intro he
    by_contra hne
    have hmem := List.getLast_mem hne
    unfold recorded_after at he
    rw [List.getLast?_eq_getLast _ hne] at he
    simp only [Option.getD_some] at he
    rw [he] at hmem
    exact h hmem
  · intro he
    rw [he]
    rfl

/-- C14: after a construction that completes, `get_error()` is the error raised last in the
pass, the steps taken in order (the sub-tokens and tokens in argument order, then the check
for a waiting option, then the check of the limit), and NoError when none was raised; no
raised error is NoError, so `get_error()` is NoError exactly when no step raised an
error. -/
theorem error_is_last_raised (argv : List Str) (options : List Option)
    (default_arguments : List Str) (config : Config) (s : CLOrca)
    (h : CLOrca.construct argv options default_arguments config = some s) :
    s.get_error =
      recorded_after Error.NoError
        (CLOrca.construct_raised argv options default_arguments config) ∧
    Error.NoError ∉ CLOrca.construct_raised argv options default_arguments config ∧
    (s.get_error = Error.NoError ↔
      CLOrca.construct_raised argv options default_arguments config = []) := by
  have hmain : s.error =
      recorded_after Error.NoError
        (CLOrca.construct_raised argv options default_arguments config) ∧
      Error.NoError ∉ CLOrca.construct_raised argv options default_arguments config := by
    unfold CLOrca.construct CLOrca.load_options at h
    unfold CLOrca.construct_raised CLOrca.load_options_raised
    cases argv with
    | nil =>
      simp only at h ⊢
      obtain ⟨s2, h2, h3⟩ := Option.map_eq_some'.mp h
      rw [← h3]
      exact final_checks_recorded _ s2 h2
    | cons exe rest =>
      simp only at h ⊢
      split at h
      · cases h
      · rename_i s1 h1
        obtain ⟨s2, h2, h3⟩ := Option.map_eq_some'.mp h
        obtain ⟨a1, a2⟩ := load_arguments_recorded rest _ s1 h1
        obtain ⟨b1, b2⟩ := final_checks_recorded s1 s2 h2
        refine ⟨?_, ?_⟩
        · rw [← h3, recorded_after_append, b1, a1]
          rfl
        · intro hmem
          rcases List.mem_append.mp hmem with e | e
          · exact a2 e
          · exact b2 e
  refine ⟨hmain.1, hmain.2, ?_⟩
  unfold CLOrca.get_error
  rw [hmain.1]
  exact recorded_after_eq_no_error _ hmain.2

/-- Witness of C14: in `tests --bogus -h` the error NotPossibleOption of the first token is
the only one raised and is still recorded at the end; in `tests -h` none is raised. -/
theorem error_is_last_raised_witness :
    CLOrca.construct_raised ["tests".toList, "--bogus".toList, "-h".toList] error_options []
      quiet_config = [Error.NotPossibleOption] ∧
    (∃ s, CLOrca.construct ["tests".toList, "--bogus".toList, "-h".toList] error_options []
        quiet_config = some s ∧ s.get_error = Error.NotPossibleOption) ∧
    (∃ s, CLOrca.construct ["tests".toList, "-h".toList] error_options [] quiet_config
        = some s ∧ s.get_error = Error.NoError) := by
  have h1 : CLOrca.construct ["tests".toList, "--bogus".toList, "-h".toList] error_options []
      quiet_config =
      some { CLOrca.init [error_options[0], { error_options[1] with provided := true }] []
          quiet_config with
        error := Error.NotPossibleOption, executable_name := "tests".toList } := by
    decide
  have h2 : CLOrca.construct ["tests".toList, "-h".toList] error_options [] quiet_config =
      some { CLOrca.init [error_options[0], { error_options[1] with provided := true }] []
          quiet_config with
        executable_name := "tests".toList } := by
    decide
  exact ⟨by decide,
    ⟨_, h1, (error_is_last_raised _ _ _ _ _ h1).1.trans (by decide)⟩,
    ⟨_, h2, (error_is_last_raised _ _ _ _ _ h2).2.2.2 (by decide)⟩⟩

theorem short_walk_eq_seq (cs : List Char) (s : CLOrca) :
    s.short_walk cs = s.load_option_seq (expansion cs) := by
  induction cs generalizing s with
  | nil => rfl
  | cons c cs ih =>
    rw [CLOrca.short_walk, expansion]
    split
    · simp only [CLOrca.load_option_seq]
      cases s.load_option ('-' :: c :: cs) <;> rfl
    · simp only [CLOrca.load_option_seq]
      cases s.load_option ['-', c] with
      | none => rfl
      | some s1 => exact ih s1

theorem load_argument_eq_seq (s : CLOrca) (t : Str) (h : t.head? = some '-') :
    s.load_argument t = s.load_option_seq (sub_tokens t) := by
  cases t with
  | nil => cases h
  | cons c t =>
    have hc : c = '-' := by simpa using h
    subst hc
    unfold CLOrca.load_argument sub_tokens
    simp only [List.getElem?_cons_zero, if_true]
    split
    · simp only [CLOrca.load_option_seq]
      cases s.load_option ('-' :: t) <;> rfl
    · rw [load_simple_options_eq, short_walk_eq_seq]

theorem load_option_waiting (s s' : CLOrca) (u : Str) (h : s.load_option u = some s') :
    s'.waiting_value_option = (s.waiting_left_by u).getD s.waiting_value_option := by
  cases hf : s.find_option (get_option_info u).option with
  | none =>
    rw [load_option_not_found_spec s s' u hf h]
    simp [CLOrca.waiting_left_by, hf]
  | some q =>
    obtain ⟨_, _, _, _, _, hw, _⟩ := load_option_found_spec s s' u q hf h
    rw [hw]
    simp [CLOrca.waiting_left_by, hf]

theorem waiting_left_by_congr (s s1 : CLOrca) (u : Str)
    (hd : s1.options.map Option.decl = s.options.map Option.decl) :
    s1.waiting_left_by u = s.waiting_left_by u := by
  cases hf : s.find_option (get_option_info u).option with
  | none =>
    have hc := find_option_congr s s1 (get_option_info u).option hd
    rw [hf] at hc
    have h1 : s1.find_option (get_option_info u).option = none := by
      cases h1 : s1.find_option (get_option_info u).option with
      | none => rfl
      | some x => rw [h1] at hc; cases hc
    simp [CLOrca.waiting_left_by, hf, h1]
  | some q =>
    obtain ⟨⟨v, hvlt⟩, h1, hv, hcomp⟩ := find_option_transport s s1 _ hd q hf
    simp only at hv hcomp
    subst hv
    simp [CLOrca.waiting_left_by, hf, h1, hcomp]

theorem load_option_seq_waiting (us : List Str) (s s' : CLOrca)
    (h : s.load_option_seq us = some s') :
    s'.waiting_value_option =
      ((us.filterMap s.waiting_left_by).getLast?).getD s.waiting_value_option := by
  induction us generalizing s with
  | nil =>
    simp only [CLOrca.load_option_seq] at h
    injection h with h
    subst h
    rfl
  | cons u us ih =>
    rw [CLOrca.load_option_seq] at h
    split at h
    · cases h
    · rename_i s1 h1
      have hd := (load_option_inv s s1 u h1).1
      have hcongr : us.filterMap s1.waiting_left_by = us.filterMap s.waiting_left_by := by
        congr 1
        funext v
        exact waiting_left_by_congr s s1 v hd
      rw [ih s1 h, hcongr, load_option_waiting s s1 u h1, List.filterMap_cons]
      cases hu : s.waiting_left_by u with
      | none => rfl
      | some x =>
        simp only [Option.getD_some]
        cases hl : us.filterMap s.waiting_left_by with
        | nil => rfl
        | cons y ys =>
          rw [List.getLast?_eq_getLast _ (by simp)]
          rfl

theorem load_option_seq_total (us : List Str) (s : CLOrca) (hwf : s.wf) :
    ∃ s', s.load_option_seq us = some s' := by
  induction us generalizing s with
  | nil => exact ⟨s, rfl⟩
  | cons u us ih =>
    obtain ⟨s1, h1⟩ := load_option_total s u hwf
    rw [CLOrca.load_option_seq, h1]
    exact ih s1 ((load_option_inv s s1 u h1).2.2.2.2.2.1 hwf)

/-- Counterexample to C17 as stated: with `-f` waiting, the option token `--bogus` (an alias
of no option) and the token `-` both leave `-f` waiting, and in `tests -f --bogus value`
the token `value` is stored as a value of `-f` although the token before it is
`--bogus`. -/
theorem wait_survives_unknown_option_counterexample :
    (waiting_file.load_argument "--bogus".toList).map
      (fun s => s.waiting_value_option) = some (some 0) ∧
    (waiting_file.load_argument "-".toList).map
      (fun s => s.waiting_value_option) = some (some 0) ∧
    (CLOrca.construct ["tests".toList, "-f".toList, "--bogus".toList, "value".toList]
      error_options [] quiet_config).map
      (fun s => (s.options.map (fun o : Option => o.values), s.get_arguments)) =
      some ([["value".toList], []], []) := by
  decide

theorem get_option_info_split (t : Str) :
    (SEPARATOR ∉ t ∧ get_option_info t = { option := t, value := [], has_separator := false }) ∨
    (∃ a v : Str, t = a ++ SEPARATOR :: v ∧ SEPARATOR ∉ a ∧
      get_option_info t = { option := a, value := v, has_separator := true }) := by
  by_cases h : SEPARATOR ∈ t
  · right
    obtain ⟨a, v, hav⟩ := List.append_of_mem h
    have hsplit := List.takeWhile_append_dropWhile (fun c => c != SEPARATOR) t
    have hno : SEPARATOR ∉ t.takeWhile (fun c => c != SEPARATOR) := by
      intro hmem
      have := List.mem_takeWhile_imp hmem
      simp at this
    cases hd : t.dropWhile (fun c => c != SEPARATOR) with
    | nil =>
      rw [hd, List.append_nil] at hsplit
      rw [hsplit] at hno
      exact absurd h hno
    | cons c w =>
      have hc : c = SEPARATOR := by
        have := List.head_dropWhile_not (fun c => c != SEPARATOR) t (by simp [hd])
        simpa [hd] using this
      subst hc
      rw [hd] at hsplit
      refine ⟨_, w, hsplit.symm, hno, ?_⟩
      conv_lhs => rw [← hsplit]
      exact get_option_info_separator _ _ hno
  · exact Or.inl ⟨h, get_option_info_no_separator t h⟩

theorem split_at_first (s : Str) (k : Nat) (hk : s[k]? = some SEPARATOR) :
    s = s.take k ++ SEPARATOR :: s.drop (k + 1) := by
  obtain ⟨hlt, hget⟩ := List.getElem?_eq_some_iff.mp hk
  have h1 : s.drop k = SEPARATOR :: s.drop (k + 1) := by
    rw [List.drop_eq_getElem_cons hlt, hget]
  conv_lhs => rw [← List.take_append_drop k s, h1]

/-- C21: `get_option_info(s)` splits `s` once, at its first `=`. Without `=` in `s` the
result is `s`, the empty value and no separator; with the first `=` at position `k` (an `=`
at `k` and none before) it is the `k` characters before it, all the characters after it,
further `=` included, and the separator flag. So the option part never contains `=`, the
flag is set exactly when `s` contains `=`, the option part followed, when the flag is set,
by `=` and the value part is `s` again, and `-f` and `-f=` differ in the flag only. -/
theorem get_option_info_splits_once (s : Str) :
    (SEPARATOR ∉ s →
      get_option_info s = { option := s, value := [], has_separator := false }) ∧
    (∀ k : Nat, s[k]? = some SEPARATOR → SEPARATOR ∉ s.take k →
      get_option_info s =
        { option := s.take k, value := s.drop (k + 1), has_separator := true }) ∧
    SEPARATOR ∉ (get_option_info s).option ∧
    ((get_option_info s).has_separator = true ↔ SEPARATOR ∈ s) ∧
    (get_option_info s).option ++
      (if (get_option_info s).has_separator = true then SEPARATOR :: (get_option_info s).value
        else []) = s ∧
    get_option_info "-f".toList =
      { option := "-f".toList, value := [], has_separator := false } ∧
    get_option_info "-f=".toList =
      { option := "-f".toList, value := [], has_separator := true } := by
  refine ⟨get_option_info_no_separator s, ?_, ?_, ?_, ?_, by decide, by decide⟩
  · intro k hk hno
    have hs := split_at_first s k hk
    conv_lhs => rw [hs]
    exact get_option_info_separator _ _ hno
  · rcases get_option_info_split s with ⟨hno, h⟩ | ⟨a, v, _, hno, h⟩
    · rw [h]; exact hno
    · rw [h]; exact hno
  · rcases get_option_info_split s with ⟨hno, h⟩ | ⟨a, v, hs, _, h⟩
    · rw [h]
      simp [hno]
    · rw [h]
      simp [hs]
  · rcases get_option_info_split s with ⟨_, h⟩ | ⟨a, v, hs, _, h⟩
    · rw [h]
      simp
    · rw [h]
      simp [hs]

/-- Witness of C21: `-u=a=b` has its first `=` at position 2 and splits into `-u` and
`a=b`; `--file` has none. -/
theorem get_option_info_splits_once_witness :
    get_option_info "-u=a=b".toList =
      { option := "-u".toList, value := "a=b".toList, has_separator := true } ∧
    get_option_info "--file".toList =
      { option := "--file".toList, value := [], has_separator := false } :=
  ⟨(get_option_info_splits_once "-u=a=b".toList).2.1 2 (by decide) (by decide),
   (get_option_info_splits_once "--file".toList).1 (by decide)⟩

/-- C22: `load_simple_options(t)` is the step `load_option` applied, in order, to the
sub-tokens of the reference expansion of the characters of `t` after its first one: a
character whose next character is `=` yields `-` followed by the rest of `t` from this
character on and ends the expansion, any other character `c` yields `-c`. So `-laf=foo.txt`
is processed as `-l`, `-a`, `-f=foo.txt`, the token `-f` as `-f`, and the token `-` as no
sub-token at all. -/
theorem load_simple_options_refines (s : CLOrca) (t : Str) :
    s.load_simple_options t = s.load_option_seq (expansion (t.drop 1)) ∧
    (∀ cs : List Char,
      s.load_simple_options ('-' :: cs) = s.load_option_seq (expansion cs)) ∧
    expansion ("-laf=foo.txt".toList.drop 1) =
      ["-l".toList, "-a".toList, "-f=foo.txt".toList] ∧
    expansion ("-f".toList.drop 1) = ["-f".toList] ∧
    expansion ("-".toList.drop 1) = [] := by
  refine ⟨?_, fun cs => ?_, by decide, by decide, by decide⟩
  · rw [load_simple_options_eq, short_walk_eq_seq]
  · rw [load_simple_options_eq, short_walk_eq_seq]
    rfl

theorem load_argument_arguments (s s' : CLOrca) (t : Str) (h : s.load_argument t = some s') :
    s'.arguments = s.arguments ∨
    (s'.arguments = s.arguments ++ [t] ∧ t.head? ≠ some '-') := by
  rcases load_argument_cases s s' t h with ⟨_, h1 | h1⟩ | ⟨_, hhead, _, h1⟩ |
    ⟨_, _, w, wo, _, _, h1⟩
  · exact Or.inl (load_option_inv s s' t h1).2.1
  · exact Or.inl (short_walk_inv _ s s' h1).2.1
  · rw [h1]
    exact Or.inr ⟨rfl, hhead⟩
  · rw [h1]
    exact Or.inl rfl

theorem load_arguments_arguments (ts : List Str) (s s' : CLOrca)
    (h : s.load_arguments ts = some s') :
    ∃ l : List Str, s'.arguments = s.arguments ++ l ∧ l.Sublist ts ∧
      ∀ a ∈ l, a.head? ≠ some '-' := by
  induction ts generalizing s with
  | nil =>
    simp only [CLOrca.load_arguments] at h
    injection h with h
    subst h
    exact ⟨[], by simp, List.Sublist.refl _, fun a ha => (by cases ha)⟩
  | cons t ts ih =>
    rw [CLOrca.load_arguments] at h
    split at h
    · cases h
    · rename_i s1 h1
      obtain ⟨l, hl, hsub, hdash⟩ := ih s1 h
      rcases load_argument_arguments s s1 t h1 with h2 | ⟨h2, hhead⟩
      · exact ⟨l, by rw [hl, h2], hsub.cons t, hdash⟩
      · refine ⟨t :: l, by rw [hl, h2]; simp, hsub.cons₂ t, fun a ha => ?_⟩
        rcases List.mem_cons.mp ha with e | e
        · rw [e]; exact hhead
        · exact hdash a e

/-- C23: after a construction that completes, `get_arguments()` is a sublist of
`argv[1..]`, in the order of `argv` (so `argv[0]` is not among the arguments unless it
occurs again later, and nothing is invented, repeated or moved), and none of its elements
starts with `-`. -/
theorem arguments_sublist_of_argv (argv : List Str) (options : List Option)
    (default_arguments : List Str) (config : Config) (s : CLOrca)
    (h : CLOrca.construct argv options default_arguments config = some s) :
    s.get_arguments.Sublist argv.tail ∧ ∀ a ∈ s.get_arguments, a.head? ≠ some '-' := by
  obtain ⟨s0, s1, s2, _, _, _, _, ha0, h1, h2, h3⟩ :=
    construct_cases argv options default_arguments config s h
  obtain ⟨ha2, _, _, _, _⟩ := check_waiting_inv _ _ h2
  obtain ⟨l, hl, hsub, hdash⟩ := load_arguments_arguments _ s0 s1 h1
  have hargs : s.get_arguments = l := by
    rw [h3, check_limit_frame]
    show s2.arguments = l
    rw [ha2, hl, ha0]
    rfl
  rw [hargs]
  exact ⟨hsub, hdash⟩

/-- Witness of C23: in `tests -h argument argument2` the arguments are `argument` and
`argument2`. -/
theorem arguments_sublist_of_argv_witness :
    CLOrca.construct ["tests".toList, "-h".toList, "argument".toList, "argument2".toList]
      [input_options[0]] [] default_config =
      some { CLOrca.init [{ input_options[0] with provided := true }] [] default_config with
        arguments := ["argument".toList, "argument2".toList],
        executable_name := "tests".toList } ∧
    (["argument".toList, "argument2".toList] : List Str).Sublist
      ["-h".toList, "argument".toList, "argument2".toList] ∧
    ∀ a ∈ (["argument".toList, "argument2".toList] : List Str), a.head? ≠ some '-' :=
  ⟨by decide,
   arguments_sublist_of_argv
    ["tests".toList, "-h".toList, "argument".toList, "argument2".toList]
    [input_options[0]] [] default_config
    { CLOrca.init [{ input_options[0] with provided := true }] [] default_config with
      arguments := ["argument".toList, "argument2".toList],
      executable_name := "tests".toList }
    (by decide)⟩

theorem awaited_after_congr (ts : List Str) (s s1 : CLOrca) (w0 : Maybe Nat)
    (hd : s1.options.map Option.decl = s.options.map Option.decl) :
    s1.awaited_after w0 ts = s.awaited_after w0 ts := by
  have hfun : s1.waiting_left_by = s.waiting_left_by := by
    funext v
    exact waiting_left_by_congr s s1 v hd
  induction ts generalizing w0 with
  | nil => rfl
  | cons t ts ih =>
    rw [CLOrca.awaited_after, CLOrca.awaited_after, hfun]
    exact ih _

theorem load_argument_waiting (s s' : CLOrca) (t : Str) (h : s.load_argument t = some s') :
    s'.waiting_value_option =
      (if t.head? = some '-' then
        (((sub_tokens t).filterMap s.waiting_left_by).getLast?).getD s.waiting_value_option
      else none) := by
  by_cases hhead : t.head? = some '-'
  · simp only [hhead, if_true]
    rw [load_argument_eq_seq s t hhead] at h
    exact load_option_seq_waiting _ s s' h
  · simp only [hhead, if_false]
    rcases load_argument_cases s s' t h with ⟨h1, _⟩ | ⟨_, _, hw, h1⟩ |
      ⟨_, _, w, wo, _, _, h1⟩
    · exact absurd h1 hhead
    · rw [h1]
      exact hw
    · rw [h1]

theorem load_arguments_waiting (ts : List Str) (s s' : CLOrca)
    (h : s.load_arguments ts = some s') :
    s'.waiting_value_option = s.awaited_after s.waiting_value_option ts := by
  induction ts generalizing s with
  | nil =>
    simp only [CLOrca.load_arguments] at h
    injection h with h
    subst h
    rfl
  | cons t ts ih =>
    rw [CLOrca.load_arguments] at h
    split at h
    · cases h
    · rename_i s1 h1
      rw [ih s1 h, awaited_after_congr ts s s1 _ (load_argument_inv s s1 t h1).1,
        load_argument_waiting s s1 t h1, CLOrca.awaited_after]

theorem awaited_after_some (ts : List Str) (s : CLOrca) (w0 : Maybe Nat) (w : Nat)
    (h : s.awaited_after w0 ts = some w) :
    (w0 = some w ∧
      ∀ u ∈ ts, u.head? = some '-' ∧ (sub_tokens u).filterMap s.waiting_left_by = []) ∨
    (∃ (pre1 : List Str) (t : Str) (pre2 : List Str), ts = pre1 ++ t :: pre2 ∧
      t.head? = some '-' ∧
      ((sub_tokens t).filterMap s.waiting_left_by).getLast? = some (some w) ∧
      ∀ u ∈ pre2, u.head? = some '-' ∧ (sub_tokens u).filterMap s.waiting_left_by = []) := by
  induction ts generalizing w0 with
  | nil =>
    left
    exact ⟨h, fun u hu => (by cases hu)⟩
  | cons t ts ih =>
    rw [CLOrca.awaited_after] at h
    rcases ih _ h with ⟨h1, hall⟩ | ⟨pre1, t', pre2, hts, ht', hlast, hall⟩
    · by_cases hhead : t.head? = some '-'
      · simp only [hhead, if_true] at h1
        cases hl : ((sub_tokens t).filterMap s.waiting_left_by).getLast? with
        | none =>
          rw [hl] at h1
          left
          refine ⟨h1, fun u hu => ?_⟩
          rcases List.mem_cons.mp hu with e | e
          · rw [e]
            exact ⟨hhead, List.getLast?_eq_none_iff.mp hl⟩
          · exact hall u e
        | some x =>
          rw [hl] at h1
          simp only [Option.getD_some] at h1
          right
          exact ⟨[], t, ts, rfl, hhead, by rw [hl, h1], hall⟩
      · simp only [hhead, if_false] at h1
        cases h1
    · right
      exact ⟨t :: pre1, t', pre2, by rw [hts]; rfl, ht', hlast, hall⟩

theorem construct_prefix (options : List Option) (default_arguments : List Str)
    (config : Config) (exe : Str) (pre : List Str) (v : Str) (post : List Str) (s : CLOrca)
    (h : CLOrca.construct (exe :: (pre ++ v :: post)) options default_arguments config
      = some s) :
    ∃ s1 s2 : CLOrca,
      CLOrca.load_arguments
        { CLOrca.init options default_arguments config with executable_name := filename exe }
        pre = some s1 ∧
      s1.load_argument v = some s2 := by
  unfold CLOrca.construct CLOrca.load_options at h
  simp only at h
  split at h
  · cases h
  · rename_i sf hf
    rw [load_arguments_append] at hf
    split at hf
    · cases hf
    · rename_i s1 h1
      rw [CLOrca.load_arguments] at hf
      split at hf
      · cases hf
      · rename_i s2 h2
        exact ⟨s1, s2, h1, h2⟩

/-- C17, amended: in a state whose waiting option, when there is one, is one of the options
and has an alias, a non-empty token `t` is processed to the end. When `t` is not an option
token no option waits afterwards, and `t` is appended to the values of the option that
waited before, every other option and the positional arguments staying as they were, or to
the positional arguments when none waited, the options staying as they were. When `t` is
an option token the waiting option afterwards is the one left by the last sub-token of `t`
that resolves to an option (that option if it is Compound and the sub-token has no
separator, none otherwise), and it is the waiting option of before when no sub-token of
`t` resolves. Consequently, in a construction that completes, a token `v` that is not an
option token changes the values of an option only by being appended to them, and only when
some token `t` before it is an option token whose last resolving sub-token leaves that
option waiting and every token between `t` and `v` is an option token none of whose
sub-tokens resolves. -/
theorem waiting_after_token :
    (∀ (s : CLOrca) (t : Str), s.wf → t ≠ [] →
      ∃ s' : CLOrca, s.load_argument t = some s' ∧
        (t.head? ≠ some '-' →
          s'.waiting_value_option = none ∧
          (∀ w : Nat, s.waiting_value_option = some w →
            s'.get_arguments = s.arguments ∧
            ∃ p : Option, s.options[w]? = some p ∧
              s'.options = s.options.set w { p with values := p.values ++ [t] }) ∧
          (s.waiting_value_option = none →
            s'.get_arguments = s.arguments ++ [t] ∧ s'.options = s.options)) ∧
        (t.head? = some '-' →
          s'.waiting_value_option =
            (((sub_tokens t).filterMap s.waiting_left_by).getLast?).getD
              s.waiting_value_option)) ∧
    (∀ (options : List Option) (default_arguments : List Str) (config : Config) (exe : Str)
      (pre : List Str) (v : Str) (post : List Str) (s : CLOrca),
      CLOrca.construct (exe :: (pre ++ v :: post)) options default_arguments config = some s →
      v.head? ≠ some '-' →
      ∃ s1 s2 : CLOrca,
        CLOrca.load_arguments
          { CLOrca.init options default_arguments config with
            executable_name := filename exe } pre = some s1 ∧
        s1.load_argument v = some s2 ∧
        s1.waiting_value_option =
          (CLOrca.init options default_arguments config).awaited_after none pre ∧
        ∀ (w : Nat) (p p' : Option), s1.options[w]? = some p → s2.options[w]? = some p' →
          p'.values ≠ p.values →
          p'.values = p.values ++ [v] ∧
          ∃ (pre1 : List Str) (t : Str) (pre2 : List Str), pre = pre1 ++ t :: pre2 ∧
            t.head? = some '-' ∧
            ((sub_tokens t).filterMap
              (CLOrca.init options default_arguments config).waiting_left_by).getLast?
              = some (some w) ∧
            ∀ u ∈ pre2, u.head? = some '-' ∧
              (sub_tokens u).filterMap
                (CLOrca.init options default_arguments config).waiting_left_by = []) := by
  constructor
  · intro s t hwf ht
    obtain ⟨s', h⟩ := load_argument_total s t hwf ht
    refine ⟨s', h, ?_, ?_⟩
    · intro hhead
      cases hw : s.waiting_value_option with
      | none =>
        rw [load_argument_plain s t ht hhead hw] at h
        injection h with h
        subst h
        exact ⟨hw, fun w hw' => (by cases hw'), fun _ => ⟨rfl, rfl⟩⟩
      | some w =>
        obtain ⟨p, hp, _⟩ := hwf w hw
        have hlt : w < s.options.length := by
          rcases List.getElem?_eq_some_iff.mp hp with ⟨hlt, _⟩
          exact hlt
        rw [load_argument_value s t ht hhead w hw hlt] at h
        injection h with h
        subst h
        refine ⟨rfl, fun w' hw' => ?_, fun hn => (by cases hn)⟩
        injection hw' with hw'
        subst hw'
        exact ⟨rfl, s.options[w], List.getElem?_eq_getElem hlt, rfl⟩
    · intro hhead
      rw [load_argument_eq_seq s t hhead] at h
      exact load_option_seq_waiting _ s s' h
  · intro options default_arguments config exe pre v post s h hhead
    obtain ⟨s1, s2, h1, h2⟩ :=
      construct_prefix options default_arguments config exe pre v post s h
    have hwait : s1.waiting_value_option =
        (CLOrca.init options default_arguments config).awaited_after none pre := by
      rw [load_arguments_waiting pre _ s1 h1]
      exact awaited_after_congr pre (CLOrca.init options default_arguments config) _ none rfl
    refine ⟨s1, s2, h1, h2, hwait, ?_⟩
    intro w p p' hp hp' hne
    rcases load_argument_cases s1 s2 v h2 with ⟨hd, _⟩ | ⟨_, _, _, h3⟩ |
      ⟨_, _, w0, wo, hw0, hwo, h3⟩
    · exact absurd hd hhead
    · rw [h3] at hp'
      simp only at hp'
      rw [hp] at hp'
      injection hp' with hp'
      exact absurd (by rw [hp']) hne
    · rw [h3] at hp'
      simp only [List.getElem?_set] at hp'
      by_cases hk : w0 = w
      · subst hk
        rw [hwo] at hp
        injection hp with hp
        subst hp
        have hlt : w0 < s1.options.length := by
          rcases List.getElem?_eq_some_iff.mp hwo with ⟨hlt, _⟩
          exact hlt
        simp only [hlt, if_true] at hp'
        injection hp' with hp'
        subst hp'
        refine ⟨rfl, ?_⟩
        rw [hw0] at hwait
        rcases awaited_after_some pre _ none w0 hwait.symm with ⟨hnone, _⟩ | hdec
        · cases hnone
        · exact hdec
      · simp only [hk, if_false] at hp'
        rw [hp] at hp'
        injection hp' with hp'
        exact absurd (by rw [hp']) hne

/-- Witness of C17: with `-f` waiting, the token `value` ends the wait, the token `-h` ends
it and `--bogus` leaves it; and in `tests -f --bogus value` the option `-f` waits when
`value` is met. -/
theorem waiting_after_token_witness :
    (∃ s' : CLOrca, waiting_file.load_argument "value".toList = some s' ∧
      s'.waiting_value_option = none) ∧
    (∃ s' : CLOrca, waiting_file.load_argument "-h".toList = some s' ∧
      s'.waiting_value_option = none) ∧
    (∃ s' : CLOrca, waiting_file.load_argument "--bogus".toList = some s' ∧
      s'.waiting_value_option = some 0) ∧
    (∃ s1 s2 : CLOrca,
      CLOrca.load_arguments
        { CLOrca.init error_options [] quiet_config with
          executable_name := filename "tests".toList }
        ["-f".toList, "--bogus".toList] = some s1 ∧
      s1.load_argument "value".toList = some s2 ∧
      s1.waiting_value_option = some 0) := by
  have hwf : waiting_file.wf := by
    intro w hw
    injection hw with hw
    subst hw
    exact ⟨_, rfl, by decide⟩
  obtain ⟨s1, h1, a1, _⟩ := waiting_after_token.1 waiting_file "value".toList hwf (by decide)
  obtain ⟨s2, h2, _, b2⟩ := waiting_after_token.1 waiting_file "-h".toList hwf (by decide)
  obtain ⟨s3, h3, _, b3⟩ := waiting_after_token.1 waiting_file "--bogus".toList hwf (by decide)
  have hc : CLOrca.construct
      ("tests".toList :: (["-f".toList, "--bogus".toList] ++ "value".toList :: []))
      error_options [] quiet_config =
      some { CLOrca.init
          [ { error_options[0] with provided := true, values := ["value".toList] },
            error_options[1] ] [] quiet_config with
        error := Error.NotPossibleOption, executable_name := "tests".toList } := by
    decide
  obtain ⟨t1, t2, g1, g2, g3, _⟩ := waiting_after_token.2 error_options [] quiet_config
    "tests".toList ["-f".toList, "--bogus".toList] "value".toList [] _ hc (by decide)
  exact ⟨⟨s1, h1, (a1 (by decide)).1⟩, ⟨s2, h2, (b2 (by decide)).trans (by decide)⟩,
    ⟨s3, h3, (b3 (by decide)).trans (by decide)⟩,
    ⟨t1, t2, g1, g2, g3.trans (by decide)⟩⟩

end CLOrca
